import Mathlib

/-!
Verification of the graph-execution engine of the `studio` repository.

The definitions below are a shallow embedding of the TypeScript sources:
  * `src/lib/runtime.ts`   — event queue, tool registry, `executeGraph`
  * `src/app/api/stream/route.ts` — the SSE consumer that drains the queue
  * `src/app/api/llm/route.ts` and the node-variant of the same handler
    (`src/unnamed/part_000`) — the external step adapter

JavaScript numbers appearing in tool results are modelled as exact
integers (the fragment every claim exercises); all executions are modelled on the in-memory
(`hasKV = false`) backing store, which is the store whose semantics the
source defines locally.
-/

deriving instance DecidableEq for Except

namespace Studio

/-- JS `params` bags passed to tools: only the `expression` and `city`
keys are ever read by the handlers (`params?.expression`, `params?.city`). -/
structure Params where
  expression : Option String := none
  city : Option String := none
deriving DecidableEq, Repr

/-- Results returned by tool handlers.
`calcR n` models the object with single field `result = n` returned by `toolCalc`;
`weatherR t c` models the weather snapshot with fields `tempC`, `condition`;
`errJson m` models the adapter's unknown-tool value with field `error = m`. -/
inductive ToolResult where
  | calcR (result : Int)
  | weatherR (tempC : Int) (condition : String)
  | errJson (error : String)
deriving DecidableEq, Repr

/-- Characters admitted by the guard regex
`/^[-+*\/()%.\d\s^a-zA-Z,]*$/` of `safeCalc` (src/lib/runtime.ts:66). -/
def allowedChar (c : Char) : Bool :=
  c = '-' || c = '+' || c = '*' || c = '/' || c = '(' || c = ')' ||
  c = '%' || c = '.' || c.isDigit || c.isWhitespace || c = '^' ||
  (('a' ≤ c && c ≤ 'z') || ('A' ≤ c && c ≤ 'Z')) || c = ','

/-- The whole-string charset test of `safeCalc`. -/
def charsOk (s : String) : Bool := s.toList.all allowedChar

/-- Tokens of the arithmetic fragment evaluated by `safeCalc`. -/
inductive Tok where
  | num (n : Int)
  | plus
  | minus
  | star
  | slash
  | lparen
  | rparen
  | other
deriving DecidableEq, Repr

/-- Numeric value of a digit string. -/
def digitsVal (cs : List Char) : Nat :=
  cs.foldl (fun a c => a * 10 + (c.toNat - '0'.toNat)) 0

/-- Fuel-driven worker of the tokenizer.  Every step consumes at least
one character, so fuel equal to the input length always suffices; the
fuel only serves to keep the recursion structural. -/
def lexGo : Nat → List Char → List Tok
  | 0, _ => []
  | _, [] => []
  | fuel + 1, c :: cs =>
    if c.isWhitespace then lexGo fuel cs
    else if c.isDigit then
      Tok.num (digitsVal ((c :: cs).takeWhile Char.isDigit)) ::
        lexGo fuel (cs.dropWhile Char.isDigit)
    else if c = '+' then Tok.plus :: lexGo fuel cs
    else if c = '-' then Tok.minus :: lexGo fuel cs
    else if c = '*' then Tok.star :: lexGo fuel cs
    else if c = '/' then Tok.slash :: lexGo fuel cs
    else if c = '(' then Tok.lparen :: lexGo fuel cs
    else if c = ')' then Tok.rparen :: lexGo fuel cs
    else Tok.other :: lexGo fuel cs

/-- Tokenizer for the arithmetic fragment; any construct outside the
fragment becomes `Tok.other`, which makes the parse fail. -/
def lexArith (cs : List Char) : List Tok := lexGo cs.length cs

mutual

/-- Primary expressions: numeric literal, unary minus, parenthesis. -/
def parseAtom : Nat → List Tok → Option (Int × List Tok)
  | 0, _ => none
  | fuel + 1, ts =>
    match ts with
    | Tok.num q :: rest => some (q, rest)
    | Tok.minus :: rest =>
      match parseAtom fuel rest with
      | some (v, r) => some (-v, r)
      | none => none
    | Tok.lparen :: rest =>
      match parseAdd fuel rest with
      | some (v, Tok.rparen :: r) => some (v, r)
      | _ => none
    | _ => none

/-- Left-associative chain of `*` and `/` at the higher precedence level.
Only exact (remainder-free) division is inside the modelled fragment. -/
def parseMulChain : Nat → Int → List Tok → Option (Int × List Tok)
  | 0, _, _ => none
  | fuel + 1, acc, ts =>
    match ts with
    | Tok.star :: rest =>
      match parseAtom fuel rest with
      | some (v, r) => parseMulChain fuel (acc * v) r
      | none => none
    | Tok.slash :: rest =>
      match parseAtom fuel rest with
      | some (v, r) =>
        if v ≠ 0 ∧ acc % v = 0 then parseMulChain fuel (acc / v) r else none
      | none => none
    | _ => some (acc, ts)

/-- A product of atoms. -/
def parseMul : Nat → List Tok → Option (Int × List Tok)
  | 0, _ => none
  | fuel + 1, ts =>
    match parseAtom fuel ts with
    | some (v, r) => parseMulChain fuel v r
    | none => none

/-- Left-associative chain of `+` and `-`. -/
def parseAddChain : Nat → Int → List Tok → Option (Int × List Tok)
  | 0, _, _ => none
  | fuel + 1, acc, ts =>
    match ts with
    | Tok.plus :: rest =>
      match parseMul fuel rest with
      | some (v, r) => parseAddChain fuel (acc + v) r
      | none => none
    | Tok.minus :: rest =>
      match parseMul fuel rest with
      | some (v, r) => parseAddChain fuel (acc - v) r
      | none => none
    | _ => some (acc, ts)

/-- A sum of products. -/
def parseAdd : Nat → List Tok → Option (Int × List Tok)
  | 0, _ => none
  | fuel + 1, ts =>
    match parseMul fuel ts with
    | some (v, r) => parseAddChain fuel v r
    | none => none

end

/-- Evaluate an arithmetic expression string to an exact integer. -/
def evalArith (s : String) : Option Int :=
  let ts := lexArith s.toList
  match parseAdd (ts.length + 1) ts with
  | some (v, []) => some v
  | _ => none

/-- `safeCalc` (src/lib/runtime.ts:65-69): rejects strings outside the
whitelisted charset with the error `invalid chars`, then delegates the
remaining string to the JS evaluator.  The delegation is modelled by the
exact integer-arithmetic evaluator above; whitelisted constructs that
fall outside that fragment (float results, `%`, `^`, `Math` function
calls) are reported as `unsupported` by the model. -/
def safeCalc (expr : String) : Except String Int :=
  if ¬ charsOk expr then Except.error "invalid chars"
  else
    match evalArith expr with
    | some v => Except.ok v
    | none => Except.error "unsupported"

/-- Fixed weather lookup table (src/lib/runtime.ts:70-74). -/
def WEATHER : List (String × ToolResult) :=
  [("Delhi", ToolResult.weatherR 32 "Cloudy"),
   ("Mumbai", ToolResult.weatherR 29 "Humid"),
   ("Bengaluru", ToolResult.weatherR 24 "Light Rain")]

/-- `toolCalc` (src/lib/runtime.ts:75-77): evaluates
`String(params?.expression ?? '0')` and wraps it as `{ result }`.
An exception of `safeCalc` propagates to the caller. -/
def toolCalc (params : Params) : Except String ToolResult :=
  (safeCalc (params.expression.getD "0")).map ToolResult.calcR

/-- `toolWeather` (src/lib/runtime.ts:78-81): table lookup on
`String(params?.city ?? 'Delhi')` with the documented default. -/
def toolWeather (params : Params) : Except String ToolResult :=
  let city := params.city.getD "Delhi"
  Except.ok (((WEATHER.find? (fun p => p.1 = city)).map Prod.snd).getD
    (ToolResult.weatherR 28 "Clear"))

/-- The tool registry `TOOLS` (src/lib/runtime.ts:82-85). -/
def TOOLS : List (String × (Params → Except String ToolResult)) :=
  [("calc", toolCalc), ("weather", toolWeather)]

/-- `TOOLS[tool]`: exact-name lookup in the registry. -/
def lookupTool (name : String) : Option (Params → Except String ToolResult) :=
  (TOOLS.find? (fun p => p.1 = name)).map Prod.snd

/-! ## Events and the per-session queue (src/lib/runtime.ts:6-62) -/

/-- A planned tool invocation requested by the model
(an element of `plan.tool_calls` in the adapter). -/
structure ToolCall where
  name : String
  args : Params
deriving DecidableEq, Repr

/-- One executed tool call inside the adapter (an element of `toolResults`). -/
structure ToolOutcome where
  name : String
  result : ToolResult
deriving DecidableEq, Repr

/-- The mergeable partial-state object carried by a `state_patch` event.
Absent JS object keys are modelled as `none`; the source's `partial` key is
rendered here as `partialText`. -/
structure Patch where
  status : Option String := none
  tool : Option String := none
  result : Option ToolResult := none
  error : Option String := none
  toolCalls : Option (List ToolCall) := none
  toolResults : Option (List ToolOutcome) := none
  answer : Option String := none
  partialText : Option String := none
  startedAt : Option Nat := none
deriving DecidableEq, Repr

/-- Final metrics of the session-level `done` event. -/
structure Metrics where
  tokens : Nat
  cost : Nat
deriving DecidableEq, Repr

/-- The `Event` union (src/lib/runtime.ts:6), split by its `type` tag. -/
inductive Event where
  | node_enter (node : String) (message : String)
  | state_patch (node : String) (patch : Patch)
  | done (metrics : Metrics)
deriving DecidableEq, Repr

/-- `evt?.type === 'done'`. -/
def Event.isDone : Event → Bool
  | Event.done _ => true
  | _ => false

/-- The in-memory `SESSIONS` map: session id to queued events.  Lookup is
by the first matching key, as in a JS `Map` with distinct keys. -/
def Store := List (String × List Event)

/-- `SESSIONS.get(sid)?.queue`. -/
def queueOf (st : Store) (sid : String) : Option (List Event) :=
  (st.find? (fun p => p.1 = sid)).map Prod.snd

/-- `createSession` (in-memory branch): registers a fresh empty queue. -/
def createSession (st : Store) (sid : String) : Store := (sid, []) :: st

/-- `enqueue` (src/lib/runtime.ts:34-44, in-memory branch): appends to the
session's queue, and is a silent no-op when the session is unknown. -/
def enqueue (st : Store) (sid : String) (evt : Event) : Store :=
  if (st.find? (fun p => p.1 = sid)).isSome then
    st.map (fun p => if p.1 = sid then (p.1, p.2 ++ [evt]) else p)
  else st

/-- `dequeueBatch` (src/lib/runtime.ts:47-62, in-memory branch):
`queue.splice(0, max)` — removes and returns the `max` oldest events. -/
def dequeueBatch (st : Store) (sid : String) (max : Nat) :
    List Event × Store :=
  match queueOf st sid with
  | none => ([], st)
  | some q =>
    (q.take max, st.map (fun p => if p.1 = sid then (p.1, p.2.drop max) else p))

/-- A producer/consumer step against one session's queue. -/
inductive Op where
  | enq (e : Event)
  | deq (max : Nat)

/-- Run an interleaved sequence of `enqueue` and `dequeueBatch` calls against
the store, collecting everything any dequeue returned, in order. -/
def runOps (st : Store) (sid : String) : List Op → Store × List Event
  | [] => (st, [])
  | Op.enq e :: ops => runOps (enqueue st sid e) sid ops
  | Op.deq max :: ops =>
    let step := dequeueBatch st sid max
    let rest := runOps step.2 sid ops
    (rest.1, step.1 ++ rest.2)

/-- The events a sequence of operations enqueues, in arrival order. -/
def opsEnqueued : List Op → List Event
  | [] => []
  | Op.enq e :: ops => e :: opsEnqueued ops
  | Op.deq _ :: ops => opsEnqueued ops

/-- The SSE reader of `src/app/api/stream/route.ts`: forwards drained
events in order and closes the stream right after forwarding a `done`. -/
def deliver : List Event → List Event
  | [] => []
  | e :: rest => if e.isDone then [e] else e :: deliver rest

/-! ## Graph model (src/lib/runtime.ts:104-112) -/

/-- The `data.state` bag a node may carry when submitted (only its
`query` and `result` keys are ever read by `executeGraph`). -/
structure StateBag where
  query : Option String := none
  result : Option ToolResult := none
deriving DecidableEq, Repr

/-- The `data` bag of a submitted node. -/
structure NodeData where
  label : Option String := none
  subtitle : Option String := none
  tool : Option String := none
  params : Params := {}
  state : StateBag := {}
deriving DecidableEq, Repr

structure Node where
  id : String
  data : NodeData
deriving DecidableEq, Repr

structure Edge where
  source : String
  target : String
deriving DecidableEq, Repr

structure Graph where
  nodes : List Node
  edges : List Edge
deriving DecidableEq, Repr

/-- `Object.keys(nodes)` for the id-keyed record built by
`Object.fromEntries` (src/lib/runtime.ts:104).  Node ids are unique per
the data model, which every scheduler theorem assumes via `Nodup`. -/
def nodeKeys (g : Graph) : List String := g.nodes.map Node.id

/-- `nodes[nid]` (first match; equal to the record lookup for unique ids). -/
def findNode (g : Graph) (nid : String) : Option Node :=
  g.nodes.find? (fun n => n.id = nid)

/-- `(node?.data?.label ?? '').toString()`. -/
def labelOf (g : Graph) (nid : String) : String :=
  ((findNode g nid).bind (fun n => n.data.label)).getD ""

/-- `node?.data?.subtitle ?? ''`. -/
def subtitleOf (g : Graph) (nid : String) : String :=
  ((findNode g nid).bind (fun n => n.data.subtitle)).getD ""

/-- `node?.data?.tool`. -/
def toolOf (g : Graph) (nid : String) : Option String :=
  (findNode g nid).bind (fun n => n.data.tool)

/-- `node?.data?.params ?? {}`. -/
def paramsOf (g : Graph) (nid : String) : Params :=
  ((findNode g nid).map (fun n => n.data.params)).getD {}

/-- `toLowerCase` modelled over the character list (ASCII case folding;
the labels the sources compare against are plain ASCII). -/
def lowerChar (c : Char) : Char :=
  if 'A' ≤ c ∧ c ≤ 'Z' then Char.ofNat (c.toNat + 32) else c

/-- ASCII `s.toLowerCase()`. -/
def lowerStr (s : String) : String := String.mk (s.toList.map lowerChar)

/-- `label.toLowerCase() === 'llm' || tool === 'llm'`
(src/lib/runtime.ts:125). -/
def isLLM (g : Graph) (nid : String) : Bool :=
  lowerStr (labelOf g nid) == "llm" || toolOf g nid == some "llm"

/-- The `node_enter` message `label + ' ' + subtitle`. -/
def messageOf (g : Graph) (nid : String) : String :=
  labelOf g nid ++ " " ++ subtitleOf g nid

/-! ## Topological scheduler (src/lib/runtime.ts:107-117, 209-212)

The in-degree map, frontier and visit order evolve independently of the
per-node dispatch outcomes, so they are modelled as their own small state
on which all ordering facts are proved; `executeGraph` drives this state
and additionally accumulates events, final states and fired requests. -/

structure SchedState where
  frontier : List String
  incoming : String → Int
  order : List String

/-- `edges.filter(e => e.source === id).map(e => e.target)`. -/
def nexts (g : Graph) (id : String) : List String :=
  (g.edges.filter (fun e => e.source = id)).map Edge.target

/-- `incoming`: zero for every declared node, then one increment per edge
target (src/lib/runtime.ts:107-109). -/
def initIncoming (g : Graph) : String → Int :=
  g.edges.foldl (fun f e => Function.update f e.target (f e.target + 1))
    (fun _ => 0)

/-- The initial frontier: declared ids of zero in-degree, in declaration
order (src/lib/runtime.ts:111). -/
def schedInit (g : Graph) : SchedState :=
  { frontier := (nodeKeys g).filter (fun nid => initIncoming g nid == 0),
    incoming := initIncoming g,
    order := [] }

/-- `incoming[t] -= 1; if (incoming[t] === 0) frontier.push(t)`
(src/lib/runtime.ts:209-212), for one successor `t`. -/
def advance1 (st : SchedState) (t : String) : SchedState :=
  let incoming := Function.update st.incoming t (st.incoming t - 1)
  { frontier := if incoming t = 0 then st.frontier ++ [t] else st.frontier,
    incoming := incoming,
    order := st.order }

/-- One iteration of the `while (frontier.length)` loop, restricted to the
scheduling state: `frontier.shift()`, record the visit, then advance all
successors. -/
def schedStep (g : Graph) (st : SchedState) : SchedState :=
  match st.frontier with
  | [] => st
  | nid :: rest =>
    (nexts g nid).foldl advance1
      { frontier := rest, incoming := st.incoming, order := st.order ++ [nid] }

/-- The scheduler loop; the fuel only keeps the recursion structural and is
chosen below so that it provably never runs out. -/
def schedLoop (g : Graph) : Nat → SchedState → SchedState
  | 0, st => st
  | fuel + 1, st =>
    if st.frontier.isEmpty then st else schedLoop g fuel (schedStep g st)

/-- Every id the in-degree map can mention. -/
def support (g : Graph) : Finset String :=
  (nodeKeys g ++ g.edges.map Edge.target).toFinset

/-- Total positive in-degree mass. -/
def msum (g : Graph) (f : String → Int) : Nat :=
  ∑ s ∈ support g, (f s).toNat

/-- Loop variant: queue length plus remaining in-degree mass. -/
def measureOf (g : Graph) (st : SchedState) : Nat :=
  st.frontier.length + msum g st.incoming

/-- Enough fuel for the whole run (shown in `schedLoop_completes`). -/
def fuelOf (g : Graph) : Nat := measureOf g (schedInit g)

/-- The visit order of the topological scheduler. -/
def computeOrder (g : Graph) : List String :=
  (schedLoop g (fuelOf g) (schedInit g)).order

/-! ## Node dispatch (src/lib/runtime.ts:116-213) -/

/-- Chat messages assembled for the external step.  `toolInfo t r` models
the system message interpolating a tool name and the JSON of its result. -/
inductive Msg where
  | system (content : String)
  | user (content : String)
  | toolInfo (tool : Option String) (result : ToolResult)
deriving DecidableEq, Repr

/-- The last recorded final state for a node id (`finalStates[nid]`,
last assignment wins). -/
def lookupFS (fs : List (String × Patch)) (nid : String) : Option Patch :=
  (fs.reverse.find? (fun p => p.1 = nid)).map Prod.snd

/-- Message transcript gathered from a node's incoming edges
(src/lib/runtime.ts:128-148).  A recorded final-state patch never carries
a `query` key, so for an `input` upstream the JS fallback
`uState.query || uNode?.data?.state?.query` always reads the node's own
submitted state; for a `tool` upstream, `uState.result` of a `done` patch
takes precedence over the submitted state's `result`. -/
def messagesFor (g : Graph) (fs : List (String × Patch)) (nid : String) :
    List Msg :=
  let upstream := ((g.edges.filter (fun e => e.target = nid)).map Edge.source)
  upstream.foldl (fun msgs uid =>
    let uNode := findNode g uid
    let uLabel := lowerStr ((uNode.bind (fun n => n.data.label)).getD "")
    if uLabel = "input" then
      match uNode.bind (fun n => n.data.state.query) with
      | some q => if q = "" then msgs else msgs ++ [Msg.user q]
      | none => msgs
    else if uLabel = "tool" then
      let r :=
        match (lookupFS fs uid).bind Patch.result with
        | some res => some res
        | none => uNode.bind (fun n => n.data.state.result)
      match r with
      | some res => msgs ++ [Msg.toolInfo (uNode.bind (fun n => n.data.tool)) res]
      | none => msgs
    else msgs)
    [Msg.system "You are a helpful planner that may call tools if needed."]

/-- First-occurrence deduplication, as `Array.from(new Set(...))`. -/
def dedupFirst (l : List String) : List String :=
  l.foldl (fun acc x => if x ∈ acc then acc else acc ++ [x]) []

/-- `connectedTools` (src/lib/runtime.ts:151-160): names of tools on
neighbouring tool-labelled nodes.  The source computes this list but never
places it in the request body it sends to the adapter. -/
def connectedToolsOf (g : Graph) (nid : String) : List String :=
  dedupFirst
    (((g.edges.filter (fun e => e.source = nid ∨ e.target = nid)).map
        (fun e => if e.source = nid then findNode g e.target
                  else findNode g e.source)).filter
        (fun n => lowerStr ((n.bind (fun m => m.data.label)).getD "") = "tool")
      |>.filterMap (fun n => n.bind (fun m => m.data.tool))
      |>.filter (fun t => t ≠ ""))

/-- The body of the POST fired at `/api/llm`
(src/lib/runtime.ts:175-180):
`JSON.stringify({ session_id: sessionId, node_id: nid, messages })`. -/
structure LLMRequest where
  session_id : String
  node_id : String
  messages : List Msg
deriving DecidableEq, Repr

/-- The exact key set of the JSON object serialized as the request body at
src/lib/runtime.ts:178. -/
def llmPayloadFields : List String := ["session_id", "node_id", "messages"]

/-- Ambient behaviour of a run: the wall clock read by `Date.now()` and,
per node id, whether the fired `fetch` of that node's external request
rejects (network failure or the 90 s abort), with its message. -/
structure Env where
  now : Nat
  fetchErr : String → Option String

/-- The final state `executeGraph` records for a visited node: provisional
`started` for an external (LLM) node, the tool outcome for a registered
tool node, `skipped` otherwise.  Note this is a function of the graph
alone — no dispatch outcome feeds back into it. -/
def patchOf (g : Graph) (nid : String) : Patch :=
  if isLLM g nid then { status := some "started" }
  else
    match toolOf g nid with
    | some t =>
      match lookupTool t with
      | some handler =>
        match handler (paramsOf g nid) with
        | Except.ok r => { status := some "done", result := some r }
        | Except.error msg => { status := some "error", error := some msg }
      | none => { status := some "skipped" }
    | none => { status := some "skipped" }

/-- The events `executeGraph` enqueues while visiting one node: the
unconditional `node_enter` first, then the branch taken. -/
def eventsOf (env : Env) (g : Graph) (nid : String) : List Event :=
  Event.node_enter nid (messageOf g nid) ::
    (if isLLM g nid then
      Event.state_patch nid { status := some "planning" } ::
        (match env.fetchErr nid with
         | some msg =>
           [Event.state_patch nid { status := some "error", error := some msg }]
         | none => [])
    else
      match toolOf g nid with
      | some t =>
        match lookupTool t with
        | some handler =>
          Event.state_patch nid { status := some "running", tool := some t } ::
            (match handler (paramsOf g nid) with
             | Except.ok r =>
               [Event.state_patch nid { status := some "done", result := some r }]
             | Except.error msg =>
               [Event.state_patch nid { status := some "error", error := some msg }])
        | none => [Event.state_patch nid { status := some "skipped" }]
      | none => [Event.state_patch nid { status := some "skipped" }])

/-- The external requests fired while visiting one node: exactly one per
LLM-kind node, none otherwise. -/
def requestsOf (sid : String) (g : Graph)
    (fs : List (String × Patch)) (nid : String) : List LLMRequest :=
  if isLLM g nid then
    [{ session_id := sid, node_id := nid, messages := messagesFor g fs nid }]
  else []

/-- Full execution state: the scheduling core plus the event stream, the
`finalStates` accumulator and the outbound requests. -/
structure RunState where
  sched : SchedState
  events : List Event
  finalStates : List (String × Patch)
  requests : List LLMRequest

/-- One iteration of the `while` loop of `executeGraph`. -/
def runStep (env : Env) (sid : String) (g : Graph) (st : RunState) : RunState :=
  match st.sched.frontier with
  | [] => st
  | nid :: _ =>
    { sched := schedStep g st.sched,
      events := st.events ++ eventsOf env g nid,
      finalStates := st.finalStates ++ [(nid, patchOf g nid)],
      requests := st.requests ++ requestsOf sid g st.finalStates nid }

/-- The dispatch loop with the same structural fuel as `schedLoop`. -/
def runLoop (env : Env) (sid : String) (g : Graph) :
    Nat → RunState → RunState
  | 0, st => st
  | fuel + 1, st =>
    if st.sched.frontier.isEmpty then st
    else runLoop env sid g fuel (runStep env sid g st)

/-- `executeGraph` (src/lib/runtime.ts:101-217): the initial `sys` patch,
the dispatch loop over the Kahn frontier, then the single session-level
`done` event.  The returned value of the source is `finalStates`. -/
def executeGraph (env : Env) (sid : String) (g : Graph) : RunState :=
  let st0 : RunState :=
    { sched := schedInit g,
      events := [Event.state_patch "sys" { startedAt := some env.now }],
      finalStates := [],
      requests := [] }
  let st := runLoop env sid g (fuelOf g) st0
  { st with events := st.events ++ [Event.done { tokens := 0, cost := 0 }] }

/-! ## External step adapter (src/app/api/llm/route.ts, src/unnamed/part_000) -/

/-- Outcome of one POST to the adapter. -/
inductive AdapterOutcome where
  | ok
  | badRequest
  | err500 (msg : String)
  | uncaught (msg : String)
deriving DecidableEq, Repr

/-- Events the adapter enqueued, in order, and how the handler returned.
`uncaught` records an exception that escaped the handler itself. -/
structure AdapterResult where
  events : List Event
  outcome : AdapterOutcome
deriving DecidableEq, Repr

/-- The model's planning reply: plain content plus requested tool calls. -/
structure PlanMsg where
  content : String
  tool_calls : List ToolCall
deriving DecidableEq, Repr

/-- How a streamed reply unfolded: the tokens delivered, then an optional
exception that interrupted the stream. -/
structure StreamRun where
  delivered : List String
  err : Option String
deriving DecidableEq, Repr

/-- Execution of one requested tool call inside the adapter
(src/unnamed/part_000:68-79): `calc` and `weather` are evaluated inline
(a `safeCalc` exception propagates), any other name yields the value
`Unknown tool <name>` under an `error` key — not an exception. -/
def adapterToolResult (call : ToolCall) : Except String ToolResult :=
  if call.name = "calc" then
    (safeCalc (call.args.expression.getD "0")).map ToolResult.calcR
  else if call.name = "weather" then
    let city := call.args.city.getD "Delhi"
    Except.ok (((WEATHER.find? (fun p => p.1 = city)).map Prod.snd).getD
      (ToolResult.weatherR 28 "Clear"))
  else Except.ok (ToolResult.errJson ("Unknown tool " ++ call.name))

/-- The adapter's tool loop: stops at the first thrown exception. -/
def adapterToolResults : List ToolCall → Except String (List ToolOutcome)
  | [] => Except.ok []
  | call :: calls =>
    match adapterToolResult call with
    | Except.ok r =>
      (adapterToolResults calls).map (fun rs => { name := call.name, result := r } :: rs)
    | Except.error e => Except.error e

/-- The growing `partial` patches emitted by the token callback: after each
token the whole buffer so far. -/
def tokenPatches (nid status : String) (acc : String) :
    List String → List Event
  | [] => []
  | t :: ts =>
    Event.state_patch nid { status := some status, partialText := some (acc ++ t) } ::
      tokenPatches nid status (acc ++ t) ts

/-- The node-runtime variant of the adapter POST handler
(src/unnamed/part_000:31-143), parametric in the collaborator's behaviour:
`plan` is the phase-1 reply (or the exception its await throws) and
`stream` the token stream of the single streaming call the taken path
makes.  The request's `messages` and `tools` fields only shape the
opaque chat-model calls (schema binding and prompts), so they do not
appear in this model.  Every exception thrown inside the `try` of the
source — planning, tool execution, streaming — is converted into an
`error` patch for `node_id` and a 500 response. -/
def llmAdapterPOST (session_id node_id : String)
    (plan : Except String PlanMsg) (stream : StreamRun) : AdapterResult :=
  if session_id = "" then { events := [], outcome := AdapterOutcome.badRequest }
  else
    match plan with
    | Except.error e =>
      { events := [Event.state_patch node_id { status := some "error", error := some e }],
        outcome := AdapterOutcome.err500 e }
    | Except.ok p =>
      if p.tool_calls.isEmpty then
        -- no tools: stream the direct answer as `generating` patches
        let patches := tokenPatches node_id "generating" "" stream.delivered
        match stream.err with
        | some e =>
          { events := patches ++
              [Event.state_patch node_id { status := some "error", error := some e }],
            outcome := AdapterOutcome.err500 e }
        | none =>
          { events := patches ++
              [Event.state_patch node_id
                { status := some "done", answer := some (String.join stream.delivered) }],
            outcome := AdapterOutcome.ok }
      else
        let tc := Event.state_patch node_id
          { status := some "tool_calling", toolCalls := some p.tool_calls }
        match adapterToolResults p.tool_calls with
        | Except.error e =>
          { events := [tc,
              Event.state_patch node_id { status := some "error", error := some e }],
            outcome := AdapterOutcome.err500 e }
        | Except.ok results =>
          let tr := Event.state_patch node_id
            { status := some "tool_results", toolResults := some results }
          let patches := tokenPatches node_id "answering" "" stream.delivered
          match stream.err with
          | some e =>
            { events := [tc, tr] ++ patches ++
                [Event.state_patch node_id { status := some "error", error := some e }],
              outcome := AdapterOutcome.err500 e }
          | none =>
            { events := [tc, tr] ++ patches ++
                [Event.state_patch node_id
                  { status := some "done", answer := some (String.join stream.delivered) }],
              outcome := AdapterOutcome.ok }

/-- The edge-runtime adapter POST handler actually routed at `/api/llm`
(src/app/api/llm/route.ts:28-129).  After the session check, its first
executable statement is `const toolDefs = tools.map(...)` — but the request
body is destructured as `{ session_id, messages, node_id }` and no binding
named `tools` exists anywhere in the module, so evaluating it throws a
`ReferenceError` *before* the `try` block is entered.  Everything past that
statement is unreachable, hence not modelled: the handler enqueues nothing
and the exception escapes it. -/
def routeLlmPOST (session_id _node_id : String) (_messages : List Msg)
    (_plan : Except String PlanMsg) (_stream : StreamRun) : AdapterResult :=
  if session_id = "" then { events := [], outcome := AdapterOutcome.badRequest }
  else { events := [], outcome := AdapterOutcome.uncaught "tools is not defined" }

/-! ## Derived notions used by the verification -/

/-- Every id the run can ever place on the frontier: declared node ids and
edge targets. -/
def idsU (g : Graph) : List String := nodeKeys g ++ g.edges.map Edge.target

/-- In-degree of an id: the number of edges targeting it. -/
def tcount (g : Graph) (k : String) : Nat :=
  g.edges.countP (fun e => decide (e.target = k))

/-- Edges targeting `k` whose source has already been visited. -/
def pcount (g : Graph) (ord : List String) (k : String) : Nat :=
  g.edges.countP (fun e => decide (e.target = k ∧ e.source ∈ ord))

/-- The edge relation of the graph. -/
def edgeRel (g : Graph) (a b : String) : Prop :=
  ∃ e ∈ g.edges, e.source = a ∧ e.target = b

/-- Everything Kahn's loop maintains about its frontier, in-degree map and
visit order. -/
structure SchedInv (g : Graph) (st : SchedState) : Prop where
  ordNodup : st.order.Nodup
  frNodup : st.frontier.Nodup
  disj : ∀ n ∈ st.frontier, n ∉ st.order
  ordU : ∀ n ∈ st.order, n ∈ idsU g
  frU : ∀ n ∈ st.frontier, n ∈ idsU g
  inc : ∀ k, st.incoming k = (tcount g k : Int) - (pcount g st.order k : Int)
  frZero : ∀ n ∈ st.frontier, st.incoming n = 0
  ordZero : ∀ n ∈ st.order, st.incoming n = 0
  complete : ∀ n ∈ idsU g, st.incoming n = 0 → n ∈ st.order ∨ n ∈ st.frontier
  topo : ∀ e ∈ g.edges, e.target ∈ st.order →
    e.source ∈ st.order ∧ st.order.indexOf e.source < st.order.indexOf e.target

/-- What the loop records for every visited node, and that nothing is
recorded or announced for unvisited ones. -/
def RunRecords (g : Graph) (st : RunState) : Prop :=
  (∀ nid ∈ st.sched.order,
      lookupFS st.finalStates nid = some (patchOf g nid) ∧
      Event.node_enter nid (messageOf g nid) ∈ st.events) ∧
  (∀ p ∈ st.finalStates, p.1 ∈ st.sched.order) ∧
  (∀ n msg, Event.node_enter n msg ∈ st.events → n ∈ st.sched.order)

/-! ## Example graphs and environments used by concrete evaluations -/

/-- A benign environment: clock at zero, no fetch failures. -/
def env0 : Env := { now := 0, fetchErr := fun _ => none }

/-- A four-node diamond DAG. -/
def exampleDag : Graph :=
  { nodes := [{ id := "a", data := {} }, { id := "b", data := {} },
              { id := "c", data := {} }, { id := "d", data := {} }],
    edges := [{ source := "a", target := "b" }, { source := "a", target := "c" },
              { source := "b", target := "d" }, { source := "c", target := "d" }] }

/-- Three well-ordered nodes next to an isolated two-node cycle. -/
def exampleCycle : Graph :=
  { nodes := [{ id := "x", data := {} }, { id := "y", data := {} },
              { id := "z", data := {} }, { id := "c1", data := {} },
              { id := "c2", data := {} }],
    edges := [{ source := "x", target := "y" }, { source := "y", target := "z" },
              { source := "c1", target := "c2" },
              { source := "c2", target := "c1" }] }

/-- One declared node with an edge to an undeclared target id. -/
def exampleUndeclared : Graph :=
  { nodes := [{ id := "a", data := {} }],
    edges := [{ source := "a", target := "b" }] }

/-- A tool node naming a tool absent from the registry. -/
def exampleUnknownTool : Graph :=
  { nodes := [{ id := "t1",
                data := { label := some "Tool", tool := some "nope" } }],
    edges := [] }

/-- A calc node whose expression violates the charset guard, feeding a
healthy downstream calc node. -/
def exampleToolFailure : Graph :=
  { nodes := [{ id := "t1",
                data := { label := some "Tool", tool := some "calc",
                          params := { expression := some "2+;3" } } },
              { id := "t2",
                data := { label := some "Tool", tool := some "calc",
                          params := { expression := some "1+1" } } }],
    edges := [{ source := "t1", target := "t2" }] }

/-- Input feeding an LLM node feeding a calc tool node. -/
def exampleLLM : Graph :=
  { nodes := [{ id := "in",
                data := { label := some "Input",
                          state := { query := some "Hello" } } },
              { id := "p", data := { label := some "LLM" } },
              { id := "t",
                data := { label := some "Tool", tool := some "calc",
                          params := { expression := some "2+3*4" } } }],
    edges := [{ source := "in", target := "p" },
              { source := "p", target := "t" }] }

/-- A store holding one fresh session. -/
def exampleStore : Store := [("s", [])]

/-- An interleaving of producers and consumers on that session. -/
def exampleOps : List Op :=
  [Op.enq (Event.node_enter "a" "m1"), Op.enq (Event.node_enter "b" "m2"),
   Op.deq 1, Op.enq (Event.node_enter "c" "m3"), Op.deq 5]

/-! ## General lemmas: queue conservation and the stream consumer -/

theorem find_map_append (st : Store) (sid : String) (e : Event) :
    ((st.map (fun p => if p.1 = sid then (p.1, p.2 ++ [e]) else p)).find?
        (fun p => p.1 = sid)) =
      (st.find? (fun p => p.1 = sid)).map (fun p => (p.1, p.2 ++ [e])) := by
  induction st with
  | nil => rfl
  | cons hd tl ih =>
    by_cases h : hd.1 = sid
    · simp [List.find?, h]
    · simp [List.find?, h, ih]

theorem find_map_drop (st : Store) (sid : String) (max : Nat) :
    ((st.map (fun p => if p.1 = sid then (p.1, p.2.drop max) else p)).find?
        (fun p => p.1 = sid)) =
      (st.find? (fun p => p.1 = sid)).map (fun p => (p.1, p.2.drop max)) := by
  induction st with
  | nil => rfl
  | cons hd tl ih =>
    by_cases h : hd.1 = sid
    · simp [List.find?, h]
    · simp [List.find?, h, ih]

theorem queueOf_enqueue (st : Store) (sid : String) (q : List Event)
    (e : Event) (h : queueOf st sid = some q) :
    queueOf (enqueue st sid e) sid = some (q ++ [e]) := by
  unfold queueOf at h ⊢
  unfold enqueue
  rcases hf : st.find? (fun p => p.1 = sid) with _ | pair
  · simp [hf] at h
  · rw [hf] at h
    simp only [Option.map_some'] at h
    rw [Option.some_inj] at h
    rw [hf]
    rw [if_pos (show (some pair).isSome = true from rfl)]
    rw [find_map_append, hf]
    simp [h]

theorem dequeueBatch_spec (st : Store) (sid : String) (q : List Event)
    (max : Nat) (h : queueOf st sid = some q) :
    (dequeueBatch st sid max).1 = q.take max ∧
      queueOf (dequeueBatch st sid max).2 sid = some (q.drop max) := by
  unfold dequeueBatch
  rw [h]
  refine ⟨rfl, ?_⟩
  unfold queueOf at h ⊢
  rcases hf : st.find? (fun p => p.1 = sid) with _ | pair
  · rw [hf] at h; simp at h
  · rw [hf] at h
    simp only [Option.map_some'] at h
    rw [Option.some_inj] at h
    rw [find_map_drop, hf]
    simp [h]

theorem runOps_conservation (sid : String) :
    ∀ (ops : List Op) (st : Store) (q : List Event),
      queueOf st sid = some q →
      (runOps st sid ops).2 ++ (queueOf (runOps st sid ops).1 sid).getD [] =
        q ++ opsEnqueued ops := by
  intro ops
  induction ops with
  | nil =>
    intro st q h
    simp [runOps, opsEnqueued, h]
  | cons op rest ih =>
    intro st q h
    cases op with
    | enq e =>
      have h2 := queueOf_enqueue st sid q e h
      simpa [runOps, opsEnqueued] using ih _ _ h2
    | deq max =>
      have h2 := dequeueBatch_spec st sid q max h
      have h3 := ih (dequeueBatch st sid max).2 (q.drop max) h2.2
      simp only [runOps, opsEnqueued]
      rw [List.append_assoc, h3, h2.1]
      rw [← List.append_assoc, List.take_append_drop]

theorem deliver_eq_of_done_last (pre : List Event) (m : Metrics)
    (h : ∀ e ∈ pre, e.isDone = false) :
    deliver (pre ++ [Event.done m]) = pre ++ [Event.done m] := by
  induction pre with
  | nil => simp [deliver, Event.isDone]
  | cons e rest ih =>
    have he : e.isDone = false := h e (List.mem_cons_self e rest)
    have ih2 := ih (fun x hx => h x (List.mem_cons_of_mem e hx))
    simp only [List.cons_append, deliver, he, Bool.false_eq_true, if_false]
    exact congrArg (e :: ·) ih2

theorem deliver_dropLast_not_done :
    ∀ (l : List Event), ∀ e ∈ (deliver l).dropLast, e.isDone = false := by
  intro l
  induction l with
  | nil => intro e he; simp [deliver] at he
  | cons x rest ih =>
    intro e he
    by_cases hx : x.isDone
    · simp [deliver, hx] at he
    · have hd : deliver (x :: rest) = x :: deliver rest := by
        simp [deliver, hx]
      rw [hd] at he
      rcases hdr : deliver rest with _ | ⟨y, ys⟩
      · rw [hdr] at he; simp at he
      · rw [hdr] at he
        rw [List.dropLast_cons_of_ne_nil (by simp)] at he
        rcases List.mem_cons.mp he with rfl | hin
        · simpa using hx
        · exact ih e (by rw [hdr]; exact hin)

/-! ## Counting lemmas for the scheduler -/

theorem countP_all_of_eq {α : Type} {p q : α → Bool} :
    ∀ {l : List α}, (∀ x ∈ l, q x = true → p x = true) →
      l.countP p = l.countP q → ∀ x ∈ l, p x = true → q x = true := by
  intro l
  induction l with
  | nil => intro _ _ x hx; simp at hx
  | cons a as ih =>
    intro himp heq x hx hp
    have hle : as.countP q ≤ as.countP p :=
      List.countP_mono_left (fun y hy => himp y (List.mem_cons_of_mem a hy))
    rcases List.mem_cons.mp hx with rfl | hxas
    · by_cases hq : q x
      · exact hq
      · exfalso
        rw [List.countP_cons, List.countP_cons] at heq
        simp [hp, hq] at heq
        omega
    · refine ih (fun y hy => himp y (List.mem_cons_of_mem a hy)) ?_ x hxas hp
      rw [List.countP_cons, List.countP_cons] at heq
      by_cases hqa : q a
      · have hpa : p a = true := himp a (List.mem_cons_self a as) hqa
        simp [hpa, hqa] at heq
        omega
      · simp [hqa] at heq
        omega

theorem pcount_le_tcount (g : Graph) (ord : List String) (k : String) :
    pcount g ord k ≤ tcount g k := by
  apply List.countP_mono_left
  intro e _ he
  simp at he
  simp [he.1]

theorem countP_or_split {α : Type} (p q r : α → Bool) :
    ∀ l : List α, (∀ x ∈ l, p x = (q x || r x)) →
      (∀ x ∈ l, ¬(q x = true ∧ r x = true)) →
      l.countP p = l.countP q + l.countP r := by
  intro l
  induction l with
  | nil => intro _ _; rfl
  | cons a as ih =>
    intro hpt hex
    rw [List.countP_cons, List.countP_cons, List.countP_cons]
    rw [ih (fun x hx => hpt x (List.mem_cons_of_mem a hx))
          (fun x hx => hex x (List.mem_cons_of_mem a hx))]
    have hpa := hpt a (List.mem_cons_self a as)
    have hea := hex a (List.mem_cons_self a as)
    by_cases hq : q a = true
    · have hr : r a = false := Bool.eq_false_iff.mpr (fun h => hea ⟨hq, h⟩)
      simp [hpa, hq, hr]
      omega
    · have hq2 : q a = false := Bool.eq_false_iff.mpr hq
      by_cases hr : r a = true
      · simp [hpa, hq2, hr]
        omega
      · have hr2 : r a = false := Bool.eq_false_iff.mpr hr
        simp [hpa, hq2, hr2]

theorem pcount_append (g : Graph) (ord : List String) (nid k : String)
    (h : nid ∉ ord) :
    pcount g (ord ++ [nid]) k =
      pcount g ord k +
        g.edges.countP (fun e => decide (e.target = k ∧ e.source = nid)) := by
  unfold pcount
  apply countP_or_split
  · intro e _
    by_cases h1 : e.target = k
    · by_cases h2 : e.source ∈ ord
      · have h3 : e.source ≠ nid := fun hc => h (hc ▸ h2)
        simp [h1, h2, h3]
      · by_cases h3 : e.source = nid
        · simp [h1, h2, h3]
        · simp [h1, h2, h3]
    · simp [h1]
  · intro e _ hc
    rcases hc with ⟨h1, h2⟩
    simp at h1 h2
    exact h (h2.2 ▸ h1.2)

theorem count_nexts (g : Graph) (nid k : String) :
    (nexts g nid).count k =
      g.edges.countP (fun e => decide (e.target = k ∧ e.source = nid)) := by
  unfold nexts
  induction g.edges with
  | nil => rfl
  | cons e es ih =>
    rw [List.countP_cons]
    by_cases h1 : e.source = nid
    · by_cases h2 : e.target = k
      · simp [List.filter_cons, h1, h2, List.count_cons, ih]
      · simp [List.filter_cons, h1, h2, List.count_cons, ih]
    · simp [List.filter_cons, h1, ih]

theorem incr_foldl (es : List Edge) (k : String) :
    ∀ f : String → Int,
      (es.foldl (fun f e => Function.update f e.target (f e.target + 1)) f) k =
        f k + (es.countP (fun e => decide (e.target = k)) : Int) := by
  induction es with
  | nil => intro f; simp
  | cons e es ih =>
    intro f
    rw [List.foldl_cons, ih, List.countP_cons]
    by_cases h : e.target = k
    · simp [Function.update_apply, h]
      omega
    · have h2 : k ≠ e.target := fun hc => h hc.symm
      simp [Function.update_apply, h2, h]

theorem initIncoming_eq (g : Graph) (k : String) :
    initIncoming g k = (tcount g k : Int) := by
  unfold initIncoming tcount
  rw [incr_foldl]
  simp

theorem mem_idsU_of_target (g : Graph) {e : Edge} (he : e ∈ g.edges) :
    e.target ∈ idsU g := by
  unfold idsU
  exact List.mem_append_right _ (List.mem_map_of_mem Edge.target he)

theorem mem_idsU_of_nexts (g : Graph) {nid t : String} (ht : t ∈ nexts g nid) :
    t ∈ idsU g := by
  unfold nexts at ht
  rcases List.mem_map.mp ht with ⟨e, he, rfl⟩
  exact mem_idsU_of_target g (List.mem_of_mem_filter he)

theorem idxOf_append_left {l : List String} (l' : List String) {x : String}
    (h : x ∈ l) : (l ++ l').indexOf x = l.indexOf x := by
  induction l with
  | nil => simp at h
  | cons a as ih =>
    by_cases hax : a = x
    · simp [List.indexOf_cons, hax]
    · have : x ∈ as := by
        rcases List.mem_cons.mp h with rfl | h2
        · exact absurd rfl hax
        · exact h2
      simp [List.indexOf_cons, List.cons_append, hax, ih this]

theorem idxOf_append_self {l : List String} {x : String} (h : x ∉ l) :
    (l ++ [x]).indexOf x = l.length := by
  induction l with
  | nil => simp
  | cons a as ih =>
    have hax : a ≠ x := fun hc => h (hc ▸ List.mem_cons_self a as)
    have h2 : x ∉ as := fun hc => h (List.mem_cons_of_mem a hc)
    simp [List.indexOf_cons, List.cons_append, hax, ih h2]

/-! ## Effect of advancing the successors of one visited node -/

theorem advance1_incoming (st : SchedState) (t : String) :
    (advance1 st t).incoming = Function.update st.incoming t (st.incoming t - 1) :=
  rfl

theorem advance1_order (st : SchedState) (t : String) :
    (advance1 st t).order = st.order := rfl

theorem advance1_frontier (st : SchedState) (t : String) :
    (advance1 st t).frontier =
      if st.incoming t - 1 = 0 then st.frontier ++ [t] else st.frontier := by
  unfold advance1
  simp [Function.update_same]

theorem foldl_advance1_order (ts : List String) :
    ∀ st : SchedState, (ts.foldl advance1 st).order = st.order := by
  induction ts with
  | nil => intro st; rfl
  | cons t ts ih =>
    intro st
    rw [List.foldl_cons, ih, advance1_order]

theorem foldl_advance1_frontier_ext (ts : List String) :
    ∀ st : SchedState,
      ∃ push, (ts.foldl advance1 st).frontier = st.frontier ++ push := by
  induction ts with
  | nil => intro st; exact ⟨[], by simp⟩
  | cons t ts ih =>
    intro st
    rcases ih (advance1 st t) with ⟨push, hp⟩
    rw [List.foldl_cons]
    rw [hp, advance1_frontier]
    by_cases h : st.incoming t - 1 = 0
    · exact ⟨[t] ++ push, by simp [h]⟩
    · exact ⟨push, by simp [h]⟩

theorem foldl_advance1_spec (ts : List String) :
    ∀ st : SchedState,
      (∀ k, (ts.count k : Int) ≤ st.incoming k) →
      (∀ n ∈ st.frontier, st.incoming n = 0) →
      (∀ k, (ts.foldl advance1 st).incoming k =
          st.incoming k - (ts.count k : Int)) ∧
      (∀ x, x ∈ (ts.foldl advance1 st).frontier ↔
        (x ∈ st.frontier ∨ (x ∈ ts ∧ st.incoming x - (ts.count x : Int) = 0))) ∧
      (st.frontier.Nodup → (ts.foldl advance1 st).frontier.Nodup) := by
  induction ts with
  | nil =>
    intro st _ _
    exact ⟨fun k => by simp, fun x => by simp, fun h => h⟩
  | cons t ts ih =>
    intro st hcnt hfz
    have hcts : ((t :: ts).count t : Int) = (ts.count t : Int) + 1 := by
      rw [List.count_cons_self]
      push_cast
      ring
    have hpos : (1 : Int) ≤ st.incoming t := by
      have h1 := hcnt t
      omega
    have hinc1 : ∀ k, (advance1 st t).incoming k =
        if k = t then st.incoming t - 1 else st.incoming k := by
      intro k
      rw [advance1_incoming, Function.update_apply]
    have hcount_ne : ∀ k, k ≠ t → ((t :: ts).count k : Int) = (ts.count k : Int) := by
      intro k hk
      rw [List.count_cons_of_ne hk]
    have hcnt1 : ∀ k, (ts.count k : Int) ≤ (advance1 st t).incoming k := by
      intro k
      rw [hinc1]
      by_cases hk : k = t
      · subst hk
        rw [if_pos rfl]
        have := hcnt k
        omega
      · rw [if_neg hk]
        have := hcnt k
        rw [hcount_ne k hk] at this
        exact this
    have hfz1 : ∀ n ∈ (advance1 st t).frontier, (advance1 st t).incoming n = 0 := by
      intro n hn
      rw [advance1_frontier] at hn
      have hne_of_mem : ∀ m ∈ st.frontier, m ≠ t := by
        intro m hm hc
        have h0 := hfz m hm
        rw [hc] at h0
        omega
      by_cases hp : st.incoming t - 1 = 0
      · rw [if_pos hp] at hn
        rcases List.mem_append.mp hn with hn2 | hn2
        · have hne := hne_of_mem n hn2
          rw [hinc1, if_neg hne]
          exact hfz n hn2
        · have hnt : n = t := by simpa using hn2
          subst hnt
          rw [hinc1, if_pos rfl]
          exact hp
      · rw [if_neg hp] at hn
        have hne := hne_of_mem n hn
        rw [hinc1, if_neg hne]
        exact hfz n hn
    obtain ⟨A, B, C⟩ := ih (advance1 st t) hcnt1 hfz1
    rw [List.foldl_cons]
    have hD : ∀ x, (advance1 st t).incoming x - (ts.count x : Int) =
        st.incoming x - ((t :: ts).count x : Int) := by
      intro x
      rw [hinc1]
      by_cases hk : x = t
      · subst hk
        rw [if_pos rfl]
        omega
      · rw [if_neg hk, hcount_ne x hk]
    refine ⟨?_, ?_, ?_⟩
    · intro k
      rw [A k, hD k]
    · intro x
      rw [B x, hD x]
      by_cases hp : st.incoming t - 1 = 0
      · rw [advance1_frontier, if_pos hp]
        have htsz : (ts.count t : Int) = 0 := by
          have h2 := hcnt1 t
          rw [hinc1, if_pos rfl, hp] at h2
          omega
        constructor
        · rintro (hx | hx)
          · rcases List.mem_append.mp hx with hx2 | hx2
            · exact Or.inl hx2
            · have hxt : x = t := by simpa using hx2
              subst hxt
              refine Or.inr ⟨List.mem_cons_self x ts, ?_⟩
              omega
          · exact Or.inr ⟨List.mem_cons_of_mem t hx.1, hx.2⟩
        · rintro (hx | hx)
          · exact Or.inl (List.mem_append_left _ hx)
          · rcases hx with ⟨hmem, hz⟩
            rcases List.mem_cons.mp hmem with rfl | hmem2
            · exact Or.inl (List.mem_append_right _ (by simp))
            · exact Or.inr ⟨hmem2, hz⟩
      · rw [advance1_frontier, if_neg hp]
        constructor
        · rintro (hx | hx)
          · exact Or.inl hx
          · exact Or.inr ⟨List.mem_cons_of_mem t hx.1, hx.2⟩
        · rintro (hx | hx)
          · exact Or.inl hx
          · rcases hx with ⟨hmem, hz⟩
            rcases List.mem_cons.mp hmem with rfl | hmem2
            · by_cases htts : x ∈ ts
              · exact Or.inr ⟨htts, hz⟩
              · exfalso
                have hzc : ts.count x = 0 := by
                  exact List.count_eq_zero.mpr htts
                have hzc2 : (ts.count x : Int) = 0 := by
                  rw [hzc]; rfl
                omega
            · exact Or.inr ⟨hmem2, hz⟩
    · intro hnd
      apply C
      rw [advance1_frontier]
      by_cases hp : st.incoming t - 1 = 0
      · rw [if_pos hp]
        have htf : t ∉ st.frontier := by
          intro hc
          have := hfz t hc
          omega
        simp [List.nodup_append, hnd, htf]
      · rw [if_neg hp]
        exact hnd

/-! ## The scheduler invariant -/

theorem pcount_nil (g : Graph) (k : String) : pcount g [] k = 0 := by
  unfold pcount
  rw [List.countP_eq_zero]
  intro e _
  simp

theorem schedInv_init (g : Graph) (hnd : (nodeKeys g).Nodup) :
    SchedInv g (schedInit g) := by
  have hfz : ∀ n ∈ (schedInit g).frontier, (schedInit g).incoming n = 0 := by
    intro n hn
    have h2 := List.of_mem_filter hn
    simpa using h2
  refine ⟨List.nodup_nil, hnd.filter _, by simp [schedInit], by simp [schedInit],
    ?_, ?_, hfz, by simp [schedInit], ?_, by simp [schedInit]⟩
  · intro n hn
    unfold schedInit at hn
    simp only at hn
    exact List.mem_append_left _ (List.mem_of_mem_filter hn)
  · intro k
    show initIncoming g k = _
    rw [initIncoming_eq]
    show _ = _ - (pcount g [] k : Int)
    rw [pcount_nil]
    simp
  · intro n hn hz
    rcases List.mem_append.mp hn with hn2 | hn2
    · right
      apply List.mem_filter.mpr
      refine ⟨hn2, ?_⟩
      simpa using hz
    · exfalso
      rcases List.mem_map.mp hn2 with ⟨e, he, rfl⟩
      have h1 : 0 < tcount g e.target := by
        apply List.countP_pos_iff.mpr
        exact ⟨e, he, by simp⟩
      have h2 : (schedInit g).incoming e.target = (tcount g e.target : Int) := by
        show initIncoming g e.target = _
        exact initIncoming_eq g e.target
      rw [h2] at hz
      omega


theorem preds_visited (g : Graph) (ord : List String) (k : String)
    (h : tcount g k = pcount g ord k) :
    ∀ e ∈ g.edges, e.target = k → e.source ∈ ord := by
  intro e he ht
  have himp : ∀ x ∈ g.edges,
      (fun e => decide (e.target = k ∧ e.source ∈ ord)) x = true →
      (fun e => decide (e.target = k)) x = true := by
    intro x _ hx
    simp at hx ⊢
    exact hx.1
  have heq : g.edges.countP (fun e => decide (e.target = k)) =
      g.edges.countP (fun e => decide (e.target = k ∧ e.source ∈ ord)) := h
  have h2 := countP_all_of_eq himp heq e he (by simp [ht])
  simp at h2
  exact h2.2

theorem exists_unvisited_pred (g : Graph) (ord : List String) (k : String)
    (h : pcount g ord k < tcount g k) :
    ∃ e ∈ g.edges, e.target = k ∧ e.source ∉ ord := by
  by_contra hc
  push_neg at hc
  have hle : tcount g k ≤ pcount g ord k := by
    apply List.countP_mono_left
    intro e he hp
    simp at hp ⊢
    exact ⟨hp, hc e he hp⟩
  omega

theorem schedInv_step (g : Graph) (st : SchedState) (inv : SchedInv g st) :
    SchedInv g (schedStep g st) := by
  rcases hfr : st.frontier with _ | ⟨nid, rest⟩
  · have heq : schedStep g st = st := by
      unfold schedStep
      rw [hfr]
    rw [heq]
    exact inv
  · have hmem_nid : nid ∈ st.frontier := by
      rw [hfr]; exact List.mem_cons_self _ _
    have hnid0 : st.incoming nid = 0 := inv.frZero nid hmem_nid
    have hnid_not_ord : nid ∉ st.order := inv.disj nid hmem_nid
    have hfrnodup := inv.frNodup
    rw [hfr] at hfrnodup
    have hnid_rest : nid ∉ rest := (List.nodup_cons.mp hfrnodup).1
    have hrest_nodup : rest.Nodup := (List.nodup_cons.mp hfrnodup).2
    have hmem_rest : ∀ x ∈ rest, x ∈ st.frontier := by
      intro x hx; rw [hfr]; exact List.mem_cons_of_mem _ hx
    set st1 : SchedState :=
      { frontier := rest, incoming := st.incoming, order := st.order ++ [nid] }
      with hst1
    have hstep : schedStep g st = (nexts g nid).foldl advance1 st1 := by
      unfold schedStep
      rw [hfr]
    set ts := nexts g nid with hts
    have hinc1 : st1.incoming = st.incoming := rfl
    have hcount_ts : ∀ k, ts.count k =
        g.edges.countP (fun e => decide (e.target = k ∧ e.source = nid)) :=
      fun k => count_nexts g nid k
    have hcnt : ∀ k, (ts.count k : Int) ≤ st1.incoming k := by
      intro k
      have hi := inv.inc k
      have hple : pcount g (st.order ++ [nid]) k ≤ tcount g k :=
        pcount_le_tcount g _ k
      have hpa := pcount_append g st.order nid k hnid_not_ord
      rw [hinc1, hcount_ts k]
      omega
    have hfz1 : ∀ n ∈ st1.frontier, st1.incoming n = 0 := by
      intro n hn
      exact inv.frZero n (hmem_rest n hn)
    obtain ⟨A, B, C⟩ := foldl_advance1_spec ts st1 hcnt hfz1
    have horder : (ts.foldl advance1 st1).order = st.order ++ [nid] :=
      foldl_advance1_order ts st1
    have hts_zero : ∀ x, st.incoming x = 0 → ts.count x = 0 := by
      intro x hx
      have h2 := hcnt x
      rw [hinc1, hx] at h2
      omega
    have hts_mem : ∀ x, x ∈ ts → ts.count x ≠ 0 := by
      intro x hx hc
      exact (List.count_eq_zero.mp hc) hx
    rw [hstep]
    have hpred0 : tcount g nid = pcount g st.order nid := by
      have hi := inv.inc nid
      rw [hnid0] at hi
      omega
    refine ⟨?_, C hrest_nodup, ?_, ?_, ?_, ?_, ?_, ?_, ?_, ?_⟩
    · rw [horder]
      simp [List.nodup_append, inv.ordNodup, hnid_not_ord]
    · -- disj
      intro x hx
      rw [horder]
      rcases (B x).mp hx with hx2 | hx2
      · intro hc
        rcases List.mem_append.mp hc with hc2 | hc2
        · exact inv.disj x (hmem_rest x hx2) hc2
        · have : x = nid := by simpa using hc2
          exact hnid_rest (this ▸ hx2)
      · rcases hx2 with ⟨hmem, _⟩
        intro hc
        rcases List.mem_append.mp hc with hc2 | hc2
        · exact hts_mem x hmem (hts_zero x (inv.ordZero x hc2))
        · have hxnid : x = nid := by simpa using hc2
          exact hts_mem x hmem (hts_zero x (hxnid ▸ hnid0))
    · -- ordU
      intro n hn
      rw [horder] at hn
      rcases List.mem_append.mp hn with hn2 | hn2
      · exact inv.ordU n hn2
      · have : n = nid := by simpa using hn2
        exact this ▸ inv.frU nid hmem_nid
    · -- frU
      intro n hn
      rcases (B n).mp hn with hn2 | hn2
      · exact inv.frU n (hmem_rest n hn2)
      · exact mem_idsU_of_nexts g hn2.1
    · -- inc
      intro k
      rw [A k, horder, hinc1]
      have hi := inv.inc k
      have hpa := pcount_append g st.order nid k hnid_not_ord
      rw [hcount_ts k]
      omega
    · -- frZero
      intro n hn
      rcases (B n).mp hn with hn2 | hn2
      · have h0 := inv.frZero n (hmem_rest n hn2)
        have hc0 := hts_zero n h0
        rw [A n, hinc1, h0, hc0]
        simp
    -- hmm second case below
      · rw [A n]
        have := hn2.2
        rw [hinc1] at this ⊢
        omega
    · -- ordZero
      intro n hn
      rw [horder] at hn
      rcases List.mem_append.mp hn with hn2 | hn2
      · have h0 := inv.ordZero n hn2
        have hc0 := hts_zero n h0
        rw [A n, hinc1, h0, hc0]
        simp
      · have hn3 : n = nid := by simpa using hn2
        subst hn3
        have hc0 := hts_zero n hnid0
        rw [A n, hinc1, hnid0, hc0]
        simp
    · -- complete
      intro k hk hkz
      rw [A k, hinc1] at hkz
      rw [horder]
      by_cases hc : ts.count k = 0
      · have hk0 : st.incoming k = 0 := by
          rw [hc] at hkz
          simpa using hkz
        rcases inv.complete k hk hk0 with h2 | h2
        · exact Or.inl (List.mem_append_left _ h2)
        · rw [hfr] at h2
          rcases List.mem_cons.mp h2 with rfl | h3
          · exact Or.inl (List.mem_append_right _ (by simp))
          · exact Or.inr ((B k).mpr (Or.inl h3))
      · have hkts : k ∈ ts := by
          by_contra hnm
          exact hc (List.count_eq_zero.mpr hnm)
        exact Or.inr ((B k).mpr (Or.inr ⟨hkts, hkz⟩))
    · -- topo
      intro e he ht
      rw [horder] at ht ⊢
      rcases List.mem_append.mp ht with ht2 | ht2
      · obtain ⟨hs, hlt⟩ := inv.topo e he ht2
        refine ⟨List.mem_append_left _ hs, ?_⟩
        rw [idxOf_append_left [nid] hs, idxOf_append_left [nid] ht2]
        exact hlt
      · have htn : e.target = nid := by simpa using ht2
        have hs := preds_visited g st.order nid hpred0 e he htn
        refine ⟨List.mem_append_left _ hs, ?_⟩
        rw [idxOf_append_left [nid] hs, htn, idxOf_append_self hnid_not_ord]
        exact List.indexOf_lt_length.mpr hs

theorem schedInv_loop (g : Graph) :
    ∀ (fuel : Nat) (st : SchedState), SchedInv g st →
      SchedInv g (schedLoop g fuel st) := by
  intro fuel
  induction fuel with
  | zero => intro st inv; exact inv
  | succ fuel ih =>
    intro st inv
    unfold schedLoop
    by_cases h : st.frontier.isEmpty
    · rw [if_pos h]; exact inv
    · rw [if_neg h]
      exact ih _ (schedInv_step g st inv)


/-! ## Termination: the loop variant strictly decreases -/

theorem measure_advance1 (g : Graph) (st : SchedState) (t : String)
    (ht : t ∈ support g) :
    measureOf g (advance1 st t) ≤ measureOf g st := by
  unfold measureOf msum
  rw [advance1_frontier, advance1_incoming]
  have hsum : ∑ s ∈ support g,
      ((Function.update st.incoming t (st.incoming t - 1)) s).toNat =
      (st.incoming t - 1).toNat + ∑ s ∈ (support g).erase t, (st.incoming s).toNat := by
    rw [← Finset.add_sum_erase _ (fun s => ((Function.update st.incoming t (st.incoming t - 1)) s).toNat) ht]
    congr 1
    · rw [Function.update_same]
    · apply Finset.sum_congr rfl
      intro s hs
      rw [Function.update_noteq (Finset.mem_erase.mp hs).1]
  have horig : ∑ s ∈ support g, (st.incoming s).toNat =
      (st.incoming t).toNat + ∑ s ∈ (support g).erase t, (st.incoming s).toNat :=
    (Finset.add_sum_erase _ _ ht).symm
  by_cases hp : st.incoming t - 1 = 0
  · rw [if_pos hp]
    simp only [List.length_append, List.length_singleton]
    omega
  · rw [if_neg hp]
    omega

theorem measure_foldl (g : Graph) (ts : List String) :
    ∀ st : SchedState, (∀ t ∈ ts, t ∈ support g) →
      measureOf g (ts.foldl advance1 st) ≤ measureOf g st := by
  induction ts with
  | nil => intro st _; exact le_refl _
  | cons t ts ih =>
    intro st hmem
    rw [List.foldl_cons]
    exact le_trans
      (ih (advance1 st t) (fun x hx => hmem x (List.mem_cons_of_mem t hx)))
      (measure_advance1 g st t (hmem t (List.mem_cons_self t ts)))

theorem nexts_mem_support (g : Graph) (nid : String) :
    ∀ t ∈ nexts g nid, t ∈ support g := by
  intro t ht
  unfold support
  rcases List.mem_map.mp ht with ⟨e, he, rfl⟩
  apply List.mem_toFinset.mpr
  exact List.mem_append_right _ (List.mem_map_of_mem Edge.target (List.mem_of_mem_filter he))

theorem measure_step (g : Graph) (st : SchedState) (h : st.frontier ≠ []) :
    measureOf g (schedStep g st) < measureOf g st := by
  rcases hfr : st.frontier with _ | ⟨nid, rest⟩
  · exact absurd hfr h
  · have hstep : schedStep g st =
        (nexts g nid).foldl advance1
          { frontier := rest, incoming := st.incoming, order := st.order ++ [nid] } := by
      unfold schedStep
      rw [hfr]
    rw [hstep]
    have h1 : measureOf g
        ({ frontier := rest, incoming := st.incoming,
           order := st.order ++ [nid] } : SchedState) + 1 = measureOf g st := by
      unfold measureOf
      rw [hfr]
      simp [List.length_cons]
      omega
    have h2 := measure_foldl g (nexts g nid)
      { frontier := rest, incoming := st.incoming, order := st.order ++ [nid] }
      (nexts_mem_support g nid)
    omega

theorem schedLoop_completes (g : Graph) :
    ∀ (fuel : Nat) (st : SchedState), measureOf g st ≤ fuel →
      (schedLoop g fuel st).frontier = [] := by
  intro fuel
  induction fuel with
  | zero =>
    intro st h
    have h1 : st.frontier.length = 0 := by
      unfold measureOf at h
      omega
    have h2 : st.frontier = [] := List.length_eq_zero.mp h1
    simpa [schedLoop] using h2
  | succ fuel ih =>
    intro st h
    unfold schedLoop
    by_cases he : st.frontier.isEmpty
    · rw [if_pos he]
      exact List.isEmpty_iff.mp he
    · rw [if_neg he]
      apply ih
      have hne : st.frontier ≠ [] := by
        intro hc
        exact he (by simp [hc])
      have := measure_step g st hne
      omega

theorem schedLoop_order_ext (g : Graph) :
    ∀ (fuel : Nat) (st : SchedState), measureOf g st ≤ fuel →
      ∃ tail, (schedLoop g fuel st).order = st.order ++ st.frontier ++ tail := by
  intro fuel
  induction fuel with
  | zero =>
    intro st h
    have h1 : st.frontier.length = 0 := by
      unfold measureOf at h
      omega
    have h2 : st.frontier = [] := List.length_eq_zero.mp h1
    exact ⟨[], by simp [schedLoop, h2]⟩
  | succ fuel ih =>
    intro st h
    unfold schedLoop
    by_cases he : st.frontier.isEmpty
    · rw [if_pos he]
      have h2 : st.frontier = [] := List.isEmpty_iff.mp he
      exact ⟨[], by simp [h2]⟩
    · rw [if_neg he]
      have hne : st.frontier ≠ [] := by
        intro hc
        exact he (by simp [hc])
      have hlt := measure_step g st hne
      obtain ⟨tail2, htail2⟩ := ih (schedStep g st) (by omega)
      rcases hfr : st.frontier with _ | ⟨nid, rest⟩
      · exact absurd hfr hne
      · have hstep : schedStep g st =
            (nexts g nid).foldl advance1
              { frontier := rest, incoming := st.incoming,
                order := st.order ++ [nid] } := by
          unfold schedStep
          rw [hfr]
        obtain ⟨push, hpush⟩ := foldl_advance1_frontier_ext (nexts g nid)
          { frontier := rest, incoming := st.incoming, order := st.order ++ [nid] }
        have horder := foldl_advance1_order (nexts g nid)
          { frontier := rest, incoming := st.incoming, order := st.order ++ [nid] }
        refine ⟨push ++ tail2, ?_⟩
        rw [htail2, hstep, horder, hpush]
        simp [hfr]


/-! ## Cycles and reachability -/

theorem cycle_of_all_pred (g : Graph) (S : Finset String) (n : String)
    (hn : n ∈ S) (h : ∀ x ∈ S, ∃ y ∈ S, edgeRel g y x) :
    ∃ m, Relation.TransGen (edgeRel g) m m ∧
      Relation.ReflTransGen (edgeRel g) m n := by
  classical
  let next : {x // x ∈ S} → {x // x ∈ S} := fun x =>
    ⟨(h x.1 x.2).choose, (h x.1 x.2).choose_spec.1⟩
  have hstep : ∀ x : {x // x ∈ S}, edgeRel g (next x).1 x.1 :=
    fun x => (h x.1 x.2).choose_spec.2
  let F : ℕ → {x // x ∈ S} := fun k => next^[k] ⟨n, hn⟩
  have hF_succ : ∀ k, F (k + 1) = next (F k) := by
    intro k
    show next^[k + 1] _ = _
    rw [Function.iterate_succ_apply']
  have hFstep : ∀ k, edgeRel g (F (k + 1)).1 (F k).1 := by
    intro k
    rw [hF_succ]
    exact hstep (F k)
  have hback : ∀ k, Relation.ReflTransGen (edgeRel g) (F k).1 n := by
    intro k
    induction k with
    | zero => exact Relation.ReflTransGen.refl
    | succ k ih => exact Relation.ReflTransGen.head (hFstep k) ih
  have hchain : ∀ i j, i ≤ j →
      Relation.ReflTransGen (edgeRel g) (F j).1 (F i).1 := by
    intro i j hij
    induction j, hij using Nat.le_induction with
    | base => exact Relation.ReflTransGen.refl
    | succ j hij ih => exact Relation.ReflTransGen.head (hFstep j) ih
  have key : ∀ i j, i < j → F i = F j →
      ∃ m, Relation.TransGen (edgeRel g) m m ∧
        Relation.ReflTransGen (edgeRel g) m n := by
    intro i j hij heq2
    refine ⟨(F i).1, ?_, hback i⟩
    have h1 : Relation.ReflTransGen (edgeRel g) (F (j - 1)).1 (F i).1 :=
      hchain i (j - 1) (by omega)
    have h2 : edgeRel g (F j).1 (F (j - 1)).1 := by
      have hj : j - 1 + 1 = j := by omega
      have := hFstep (j - 1)
      rw [hj] at this
      exact this
    have h3 : Relation.TransGen (edgeRel g) (F j).1 (F i).1 :=
      Relation.TransGen.head' h2 h1
    have hv : (F i).1 = (F j).1 := congrArg Subtype.val heq2
    rw [← hv] at h3
    exact h3
  obtain ⟨i, j, hne, heq⟩ := Finite.exists_ne_map_eq_of_infinite F
  rcases hne.lt_or_lt with hij | hij
  · exact key i j hij heq
  · exact key j i hij heq.symm

theorem unvisited_cyclic (g : Graph) (st : SchedState) (inv : SchedInv g st)
    (hend : st.frontier = [])
    (hsrc : ∀ e ∈ g.edges, e.source ∈ idsU g)
    (n : String) (hn : n ∈ idsU g) (hnv : n ∉ st.order) :
    ∃ m, Relation.TransGen (edgeRel g) m m ∧
      Relation.ReflTransGen (edgeRel g) m n := by
  classical
  have hmemS : ∀ x, x ∈ (idsU g).toFinset.filter (fun x => x ∉ st.order) ↔
      (x ∈ idsU g ∧ x ∉ st.order) := by
    intro x
    simp [List.mem_toFinset]
  have hnS : n ∈ (idsU g).toFinset.filter (fun x => x ∉ st.order) :=
    (hmemS n).mpr ⟨hn, hnv⟩
  have hpred : ∀ x ∈ (idsU g).toFinset.filter (fun x => x ∉ st.order),
      ∃ y ∈ (idsU g).toFinset.filter (fun x => x ∉ st.order), edgeRel g y x := by
    intro x hx
    obtain ⟨hxU, hxnv⟩ := (hmemS x).mp hx
    have hnotfr : x ∉ st.frontier := by
      rw [hend]
      simp
    have hnz : st.incoming x ≠ 0 := by
      intro hc
      rcases inv.complete x hxU hc with h2 | h2
      · exact hxnv h2
      · exact hnotfr h2
    have hlt : pcount g st.order x < tcount g x := by
      have hi := inv.inc x
      have hle := pcount_le_tcount g st.order x
      omega
    obtain ⟨e, he, htgt, hs2⟩ := exists_unvisited_pred g st.order x hlt
    exact ⟨e.source, (hmemS _).mpr ⟨hsrc e he, hs2⟩, ⟨e, he, rfl, htgt⟩⟩
  exact cycle_of_all_pred g _ n hnS hpred

theorem ancestor_visited (g : Graph) (st : SchedState) (inv : SchedInv g st)
    {m n : String} (h : Relation.ReflTransGen (edgeRel g) m n) :
    n ∈ st.order →
      m ∈ st.order ∧ st.order.indexOf m ≤ st.order.indexOf n := by
  induction h with
  | refl => intro hm; exact ⟨hm, le_refl _⟩
  | tail hmb hbc ih =>
    intro hc
    rcases hbc with ⟨e, he, hs, ht⟩
    have h2 := inv.topo e he (ht ▸ hc)
    rw [hs, ht] at h2
    obtain ⟨hb, hlt⟩ := h2
    obtain ⟨hm2, hle⟩ := ih hb
    exact ⟨hm2, by omega⟩

theorem visited_no_cyclic_ancestor (g : Graph) (st : SchedState)
    (inv : SchedInv g st) {n : String} (hn : n ∈ st.order) :
    ¬ ∃ m, Relation.TransGen (edgeRel g) m m ∧
      Relation.ReflTransGen (edgeRel g) m n := by
  rintro ⟨m, hc, hp⟩
  obtain ⟨hm, -⟩ := ancestor_visited g st inv hp hn
  obtain ⟨b, hmb, hbm⟩ := Relation.TransGen.head'_iff.mp hc
  obtain ⟨hb, hble⟩ := ancestor_visited g st inv hbm hm
  rcases hmb with ⟨e, he, hs, ht⟩
  have h2 := inv.topo e he (ht ▸ hb)
  rw [hs, ht] at h2
  omega


/-! ## Projection of the run onto the scheduler, and what a visit records -/

theorem runStep_sched (env : Env) (sid : String) (g : Graph) (st : RunState) :
    (runStep env sid g st).sched = schedStep g st.sched := by
  unfold runStep
  rcases hfr : st.sched.frontier with _ | ⟨nid, rest⟩
  · unfold schedStep
    rw [hfr]
  · rfl

theorem runLoop_sched (env : Env) (sid : String) (g : Graph) :
    ∀ (fuel : Nat) (st : RunState),
      (runLoop env sid g fuel st).sched = schedLoop g fuel st.sched := by
  intro fuel
  induction fuel with
  | zero => intro st; rfl
  | succ fuel ih =>
    intro st
    unfold runLoop schedLoop
    by_cases h : st.sched.frontier.isEmpty
    · rw [if_pos h, if_pos h]
    · rw [if_neg h, if_neg h, ih, runStep_sched]

theorem executeGraph_sched (env : Env) (sid : String) (g : Graph) :
    (executeGraph env sid g).sched = schedLoop g (fuelOf g) (schedInit g) := by
  show (runLoop env sid g (fuelOf g) _).sched = _
  rw [runLoop_sched]

theorem executeGraph_order (env : Env) (sid : String) (g : Graph) :
    (executeGraph env sid g).sched.order = computeOrder g := by
  rw [executeGraph_sched]
  rfl

theorem executeGraph_frontier (env : Env) (sid : String) (g : Graph) :
    (executeGraph env sid g).sched.frontier = [] := by
  rw [executeGraph_sched]
  exact schedLoop_completes g (fuelOf g) (schedInit g) (le_refl _)

theorem eventsOf_shape (env : Env) (g : Graph) (nid : String) :
    ∀ ev ∈ eventsOf env g nid,
      (∃ msg, ev = Event.node_enter nid msg) ∨
      (∃ p, ev = Event.state_patch nid p) := by
  intro ev hev
  unfold eventsOf at hev
  by_cases hl : isLLM g nid
  · rw [if_pos hl] at hev
    rcases hf : env.fetchErr nid with _ | m
    · simp only [hf] at hev
      simp at hev
      rcases hev with rfl | rfl
      · exact Or.inl ⟨_, rfl⟩
      · exact Or.inr ⟨_, rfl⟩
    · simp only [hf] at hev
      simp at hev
      rcases hev with rfl | rfl | rfl
      · exact Or.inl ⟨_, rfl⟩
      · exact Or.inr ⟨_, rfl⟩
      · exact Or.inr ⟨_, rfl⟩
  · rw [if_neg hl] at hev
    rcases ht : toolOf g nid with _ | t
    · simp only [ht] at hev
      simp at hev
      rcases hev with rfl | rfl
      · exact Or.inl ⟨_, rfl⟩
      · exact Or.inr ⟨_, rfl⟩
    · simp only [ht] at hev
      rcases hlk : lookupTool t with _ | handler
      · simp only [hlk] at hev
        simp at hev
        rcases hev with rfl | rfl
        · exact Or.inl ⟨_, rfl⟩
        · exact Or.inr ⟨_, rfl⟩
      · simp only [hlk] at hev
        rcases hres : handler (paramsOf g nid) with m | r
        · simp only [hres] at hev
          simp at hev
          rcases hev with rfl | rfl | rfl
          · exact Or.inl ⟨_, rfl⟩
          · exact Or.inr ⟨_, rfl⟩
          · exact Or.inr ⟨_, rfl⟩
        · simp only [hres] at hev
          simp at hev
          rcases hev with rfl | rfl | rfl
          · exact Or.inl ⟨_, rfl⟩
          · exact Or.inr ⟨_, rfl⟩
          · exact Or.inr ⟨_, rfl⟩

theorem eventsOf_head (env : Env) (g : Graph) (nid : String) :
    ∃ rest, eventsOf env g nid =
      Event.node_enter nid (messageOf g nid) :: rest :=
  ⟨_, rfl⟩

theorem eventsOf_not_done (env : Env) (g : Graph) (nid : String) :
    ∀ ev ∈ eventsOf env g nid, ev.isDone = false := by
  intro ev hev
  rcases eventsOf_shape env g nid ev hev with ⟨msg, rfl⟩ | ⟨p, rfl⟩
  · rfl
  · rfl

theorem lookupFS_append (fs : List (String × Patch)) (nid : String) (p : Patch) :
    ∀ x, lookupFS (fs ++ [(nid, p)]) x =
      if x = nid then some p else lookupFS fs x := by
  intro x
  unfold lookupFS
  rw [List.reverse_append]
  simp only [List.reverse_singleton, List.singleton_append, List.find?]
  by_cases hx : x = nid
  · subst hx
    simp
  · have hne : ((nid, p).1 = x) = False := by
      simp
      exact fun hc => hx hc.symm
    simp [hne]
    rw [if_neg hx]

theorem runRecords_step (env : Env) (sid : String) (g : Graph) (st : RunState)
    (hs : SchedInv g st.sched) (hr : RunRecords g st) :
    RunRecords g (runStep env sid g st) := by
  rcases hfr : st.sched.frontier with _ | ⟨nid, rest⟩
  · have heq : runStep env sid g st = st := by
      unfold runStep
      rw [hfr]
    rw [heq]
    exact hr
  · have hnid_not_ord : nid ∉ st.sched.order :=
      hs.disj nid (by rw [hfr]; exact List.mem_cons_self _ _)
    have hstep : runStep env sid g st =
        { sched := schedStep g st.sched,
          events := st.events ++ eventsOf env g nid,
          finalStates := st.finalStates ++ [(nid, patchOf g nid)],
          requests := st.requests ++ requestsOf sid g st.finalStates nid } := by
      unfold runStep
      rw [hfr]
    have horder : (schedStep g st.sched).order = st.sched.order ++ [nid] := by
      unfold schedStep
      rw [hfr]
      exact foldl_advance1_order _ _
    rw [hstep]
    obtain ⟨hr1, hr2, hr3⟩ := hr
    refine ⟨?_, ?_, ?_⟩
    · intro x hx
      simp only [horder] at hx
      rw [lookupFS_append]
      rcases List.mem_append.mp hx with hx2 | hx2
      · have hxn : x ≠ nid := fun hc => hnid_not_ord (hc ▸ hx2)
        rw [if_neg hxn]
        obtain ⟨hl, he⟩ := hr1 x hx2
        exact ⟨hl, List.mem_append_left _ he⟩
      · have hxn : x = nid := by simpa using hx2
        subst hxn
        rw [if_pos rfl]
        obtain ⟨restE, hE⟩ := eventsOf_head env g x
        refine ⟨rfl, List.mem_append_right _ ?_⟩
        rw [hE]
        exact List.mem_cons_self _ _
    · intro p hp
      simp only [horder]
      rcases List.mem_append.mp hp with hp2 | hp2
      · exact List.mem_append_left _ (hr2 p hp2)
      · have hp3 : p = (nid, patchOf g nid) := by simpa using hp2
        rw [hp3]
        exact List.mem_append_right _ (by simp)
    · intro n msg hmem
      simp only [horder]
      rcases List.mem_append.mp hmem with h2 | h2
      · exact List.mem_append_left _ (hr3 n msg h2)
      · rcases eventsOf_shape env g nid _ h2 with ⟨msg2, heq⟩ | ⟨p, heq⟩
        · have hn : n = nid := by
            have := heq
            simp at this
            exact this.1
          rw [hn]
          exact List.mem_append_right _ (by simp)
        · exact absurd heq (by simp)

theorem runRecords_loop (env : Env) (sid : String) (g : Graph) :
    ∀ (fuel : Nat) (st : RunState), SchedInv g st.sched → RunRecords g st →
      RunRecords g (runLoop env sid g fuel st) := by
  intro fuel
  induction fuel with
  | zero => intro st _ hr; exact hr
  | succ fuel ih =>
    intro st hs hr
    unfold runLoop
    by_cases h : st.sched.frontier.isEmpty
    · rw [if_pos h]; exact hr
    · rw [if_neg h]
      apply ih
      · rw [runStep_sched]
        exact schedInv_step g st.sched hs
      · exact runRecords_step env sid g st hs hr

theorem runLoop_no_done (env : Env) (sid : String) (g : Graph) :
    ∀ (fuel : Nat) (st : RunState),
      (∀ e ∈ st.events, e.isDone = false) →
      ∀ e ∈ (runLoop env sid g fuel st).events, e.isDone = false := by
  intro fuel
  induction fuel with
  | zero => intro st h; exact h
  | succ fuel ih =>
    intro st h
    unfold runLoop
    by_cases hf : st.sched.frontier.isEmpty
    · rw [if_pos hf]; exact h
    · rw [if_neg hf]
      apply ih
      intro e he
      unfold runStep at he
      rcases hfr : st.sched.frontier with _ | ⟨nid, rest⟩
      · rw [hfr] at he
        exact h e he
      · rw [hfr] at he
        simp only at he
        rcases List.mem_append.mp he with h2 | h2
        · exact h e h2
        · exact eventsOf_not_done env g nid e h2


/-! ## Facts about a whole run -/

theorem executeGraph_inv (env : Env) (sid : String) (g : Graph)
    (hnd : (nodeKeys g).Nodup) : SchedInv g (executeGraph env sid g).sched := by
  rw [executeGraph_sched]
  exact schedInv_loop g _ _ (schedInv_init g hnd)

theorem executeGraph_events_split (env : Env) (sid : String) (g : Graph) :
    ∃ pre, (executeGraph env sid g).events =
        pre ++ [Event.done { tokens := 0, cost := 0 }] ∧
      ∀ e ∈ pre, e.isDone = false := by
  refine ⟨(runLoop env sid g (fuelOf g)
    { sched := schedInit g,
      events := [Event.state_patch "sys" { startedAt := some env.now }],
      finalStates := [], requests := [] }).events, rfl, ?_⟩
  apply runLoop_no_done
  intro e he
  simp at he
  rw [he]
  rfl

theorem executeGraph_records (env : Env) (sid : String) (g : Graph)
    (hnd : (nodeKeys g).Nodup) :
    (∀ nid ∈ (executeGraph env sid g).sched.order,
        lookupFS (executeGraph env sid g).finalStates nid =
          some (patchOf g nid) ∧
        Event.node_enter nid (messageOf g nid) ∈ (executeGraph env sid g).events) ∧
    (∀ p ∈ (executeGraph env sid g).finalStates,
        p.1 ∈ (executeGraph env sid g).sched.order) ∧
    (∀ n msg, Event.node_enter n msg ∈ (executeGraph env sid g).events →
        n ∈ (executeGraph env sid g).sched.order) := by
  have hrec : RunRecords g (runLoop env sid g (fuelOf g)
      { sched := schedInit g,
        events := [Event.state_patch "sys" { startedAt := some env.now }],
        finalStates := [], requests := [] }) := by
    apply runRecords_loop
    · exact schedInv_init g hnd
    · refine ⟨?_, ?_, ?_⟩
      · intro nid hmem
        simp [schedInit] at hmem
      · intro p hp
        simp at hp
      · intro n msg hmem
        simp at hmem
  obtain ⟨h1, h2, h3⟩ := hrec
  have hsched : (executeGraph env sid g).sched =
      (runLoop env sid g (fuelOf g)
        { sched := schedInit g,
          events := [Event.state_patch "sys" { startedAt := some env.now }],
          finalStates := [], requests := [] }).sched := rfl
  have hfs : (executeGraph env sid g).finalStates =
      (runLoop env sid g (fuelOf g)
        { sched := schedInit g,
          events := [Event.state_patch "sys" { startedAt := some env.now }],
          finalStates := [], requests := [] }).finalStates := rfl
  have hev : (executeGraph env sid g).events =
      (runLoop env sid g (fuelOf g)
        { sched := schedInit g,
          events := [Event.state_patch "sys" { startedAt := some env.now }],
          finalStates := [], requests := [] }).events ++
        [Event.done { tokens := 0, cost := 0 }] := rfl
  refine ⟨?_, ?_, ?_⟩
  · intro nid hmem
    rw [hsched] at hmem
    obtain ⟨hl, he⟩ := h1 nid hmem
    rw [hfs, hev]
    exact ⟨hl, List.mem_append_left _ he⟩
  · intro p hp
    rw [hfs] at hp
    rw [hsched]
    exact h2 p hp
  · intro n msg hmem
    rw [hev] at hmem
    rcases List.mem_append.mp hmem with h4 | h4
    · rw [hsched]
      exact h3 n msg h4
    · simp at h4
  
theorem lookupFS_some_key (fs : List (String × Patch)) (x : String) (p : Patch)
    (h : lookupFS fs x = some p) : ∃ q ∈ fs, q.1 = x := by
  unfold lookupFS at h
  rcases hf : fs.reverse.find? (fun p => p.1 = x) with _ | pair
  · rw [hf] at h
    simp at h
  · have hm := List.mem_of_find?_eq_some hf
    have hp := List.find?_some hf
    exact ⟨pair, List.mem_reverse.mp hm, by simpa using hp⟩

theorem executeGraph_unvisited (env : Env) (sid : String) (g : Graph)
    (hnd : (nodeKeys g).Nodup) (n : String)
    (hn : n ∉ (executeGraph env sid g).sched.order) :
    lookupFS (executeGraph env sid g).finalStates n = none ∧
    ∀ msg, Event.node_enter n msg ∉ (executeGraph env sid g).events := by
  obtain ⟨-, h2, h3⟩ := executeGraph_records env sid g hnd
  constructor
  · rcases hl : lookupFS (executeGraph env sid g).finalStates n with _ | p
    · rfl
    · exfalso
      obtain ⟨q, hq, hqx⟩ := lookupFS_some_key _ _ _ hl
      exact hn (hqx ▸ h2 q hq)
  · intro msg hc
    exact hn (h3 n msg hc)

theorem patchOf_status (g : Graph) (nid : String) :
    (patchOf g nid).status ∈
      [some "started", some "done", some "error", some "skipped"] := by
  unfold patchOf
  by_cases hl : isLLM g nid
  · rw [if_pos hl]
    simp
  · rw [if_neg hl]
    rcases ht : toolOf g nid with _ | t
    · simp only [ht]
      simp
    · simp only [ht]
      rcases hlk : lookupTool t with _ | handler
      · simp only [hlk]
        simp
      · simp only [hlk]
        rcases hres : handler (paramsOf g nid) with m | r
        · simp only [hres]
          simp
        · simp only [hres]
          simp


theorem patchOf_tool_error (g : Graph) (nid t : String)
    (handler : Params → Except String ToolResult) (msg : String)
    (hl : isLLM g nid = false) (ht : toolOf g nid = some t)
    (hlk : lookupTool t = some handler)
    (hres : handler (paramsOf g nid) = Except.error msg) :
    patchOf g nid = { status := some "error", error := some msg } := by
  unfold patchOf
  rw [if_neg (by simp [hl])]
  simp only [ht, hlk, hres]

theorem patchOf_unknown_tool (g : Graph) (nid t : String)
    (hl : isLLM g nid = false) (ht : toolOf g nid = some t)
    (hlk : lookupTool t = none) :
    patchOf g nid = { status := some "skipped" } := by
  unfold patchOf
  rw [if_neg (by simp [hl])]
  simp only [ht, hlk]

theorem findNode_eq_none (g : Graph) (t : String) (h : t ∉ nodeKeys g) :
    findNode g t = none := by
  unfold findNode
  apply List.find?_eq_none.mpr
  intro n hn
  simp
  intro hc
  exact absurd (hc ▸ List.mem_map_of_mem Node.id hn) h

theorem findNode_none_facts (g : Graph) (t : String) (h : findNode g t = none) :
    messageOf g t = " " ∧ isLLM g t = false ∧
    patchOf g t = { status := some "skipped" } := by
  have hlab : labelOf g t = "" := by
    unfold labelOf
    rw [h]
    rfl
  have hsub : subtitleOf g t = "" := by
    unfold subtitleOf
    rw [h]
    rfl
  have htool : toolOf g t = none := by
    unfold toolOf
    rw [h]
    rfl
  have hllm : isLLM g t = false := by
    unfold isLLM
    rw [hlab, htool]
    decide
  refine ⟨?_, hllm, ?_⟩
  · unfold messageOf
    rw [hlab, hsub]
    decide
  · unfold patchOf
    rw [if_neg (by simp [hllm])]
    simp only [htool]


/-! ## The claims -/

/-- C9: the registered tool handlers are pure functions of their params:
`calc` on `2+3*4` yields 14, `weather` on Delhi yields the 32/Cloudy
snapshot, any city outside the table yields the 28/Clear default, and
invoking either tool twice with identical params yields identical
results. -/
theorem claim_C9 :
    toolCalc { expression := some "2+3*4" } =
      Except.ok (ToolResult.calcR 14) ∧
    toolWeather { city := some "Delhi" } =
      Except.ok (ToolResult.weatherR 32 "Cloudy") ∧
    (∀ city : String, city ∉ ["Delhi", "Mumbai", "Bengaluru"] →
      toolWeather { city := some city } =
        Except.ok (ToolResult.weatherR 28 "Clear")) ∧
    (∀ p : Params, toolCalc p = toolCalc p ∧ toolWeather p = toolWeather p) := by
  refine ⟨by decide, by decide, ?_, fun p => ⟨rfl, rfl⟩⟩
  intro city hc
  simp at hc
  obtain ⟨h1, h2, h3⟩ := hc
  unfold toolWeather WEATHER
  simp [List.find?, Ne.symm h1, Ne.symm h2, Ne.symm h3]

/-- C9 witness: the unlisted city conjunct instantiated at Atlantis. -/
theorem claim_C9_witness :
    ("Atlantis" : String) ∉ ["Delhi", "Mumbai", "Bengaluru"] ∧
    toolWeather { city := some "Atlantis" } =
      Except.ok (ToolResult.weatherR 28 "Clear") :=
  ⟨by decide, claim_C9.2.2.1 "Atlantis" (by decide)⟩

/-- C4: against the in-memory store, one `dequeueBatch` removes and
returns exactly the `min(max, length)` oldest events in FIFO order and
leaves the rest, and over an arbitrary interleaving of `enqueue` and
`dequeueBatch` calls on a live session the concatenation of every batch
ever returned, followed by what still sits in the queue, is exactly the
sequence of enqueued events: no duplication, no loss, order preserved. -/
theorem claim_C4 (st : Store) (sid : String) (q : List Event) (max : Nat)
    (ops : List Op) (h : queueOf st sid = some q) :
    (dequeueBatch st sid max).1 = q.take max ∧
    queueOf (dequeueBatch st sid max).2 sid = some (q.drop max) ∧
    (runOps st sid ops).2 ++ (queueOf (runOps st sid ops).1 sid).getD [] =
      q ++ opsEnqueued ops := by
  obtain ⟨h1, h2⟩ := dequeueBatch_spec st sid q max h
  exact ⟨h1, h2, runOps_conservation sid ops st q h⟩

/-- C4 witness: the conservation law evaluated on a concrete
interleaving. -/
theorem claim_C4_witness :
    (runOps exampleStore "s" exampleOps).2 ++
      (queueOf (runOps exampleStore "s" exampleOps).1 "s").getD [] =
      [] ++ opsEnqueued exampleOps :=
  (claim_C4 exampleStore "s" [] 3 exampleOps (by decide)).2.2

/-- C2: every run of `executeGraph` emits exactly one session-level
`done` event, it is the last event of the run's stream, the SSE consumer
forwards that stream unchanged (so `done` is the last event it observes),
and on any stream whatsoever the consumer never delivers an event after
the first `done`. -/
theorem claim_C2 (env : Env) (sid : String) (g : Graph) :
    (executeGraph env sid g).events.countP Event.isDone = 1 ∧
    (executeGraph env sid g).events.getLast? =
      some (Event.done { tokens := 0, cost := 0 }) ∧
    deliver (executeGraph env sid g).events = (executeGraph env sid g).events ∧
    (∀ l : List Event, ∀ e ∈ (deliver l).dropLast, e.isDone = false) := by
  obtain ⟨pre, hsplit, hnd⟩ := executeGraph_events_split env sid g
  refine ⟨?_, ?_, ?_, deliver_dropLast_not_done⟩
  · rw [hsplit, List.countP_append]
    have h0 : pre.countP Event.isDone = 0 := by
      rw [List.countP_eq_zero]
      intro e he
      simp [hnd e he]
    rw [h0]
    rfl
  · rw [hsplit, List.getLast?_concat]
  · rw [hsplit]
    exact deliver_eq_of_done_last pre _ hnd

/-- C2 witness: the consumer law instantiated on a concrete stream, and
the run-level conjunct evaluated on the diamond graph. -/
theorem claim_C2_witness :
    (Event.node_enter "a" "x").isDone = false ∧
    (executeGraph env0 "S" exampleDag).events.countP Event.isDone = 1 :=
  ⟨(claim_C2 env0 "S" exampleDag).2.2.2
      [Event.node_enter "a" "x", Event.done ⟨0, 0⟩] (Event.node_enter "a" "x")
      (by decide),
   (claim_C2 env0 "S" exampleDag).1⟩

/-- C6: the edge adapter at `/api/llm` dereferences the unbound
identifier `tools` before entering its `try`, so every request throws a
`ReferenceError` that escapes the handler with no error patch enqueued —
while the node-runtime variant of the same handler catches a planning
exception, a tool-execution exception (charset violation inside `calc`)
and a streaming exception, converting each into a `state_patch` with
`status = error` for the originating node and a 500 response. -/
theorem claim_C6 :
    routeLlmPOST "s1" "n1" [] (Except.ok ⟨"", []⟩) ⟨[], none⟩ =
      ⟨[], AdapterOutcome.uncaught "tools is not defined"⟩ ∧
    llmAdapterPOST "s1" "n1" (Except.error "boom") ⟨[], none⟩ =
      ⟨[Event.state_patch "n1" { status := some "error", error := some "boom" }],
       AdapterOutcome.err500 "boom"⟩ ∧
    llmAdapterPOST "s1" "n1"
        (Except.ok ⟨"", [⟨"calc", { expression := some "2+;3" }⟩]⟩)
        ⟨[], none⟩ =
      ⟨[Event.state_patch "n1"
          { status := some "tool_calling",
            toolCalls := some [⟨"calc", { expression := some "2+;3" }⟩] },
        Event.state_patch "n1"
          { status := some "error", error := some "invalid chars" }],
       AdapterOutcome.err500 "invalid chars"⟩ ∧
    llmAdapterPOST "s1" "n1" (Except.ok ⟨"", []⟩) ⟨["He"], some "network"⟩ =
      ⟨[Event.state_patch "n1"
          { status := some "generating", partialText := some "He" },
        Event.state_patch "n1"
          { status := some "error", error := some "network" }],
       AdapterOutcome.err500 "network"⟩ := by
  refine ⟨rfl, by decide, by decide, by decide⟩


/-- C5: evaluating a run over input -> LLM -> calc tool.  Exactly one
request is fired to the adapter for the LLM node; its JSON body carries
exactly `session_id`, `node_id` and `messages` — the computed
`connectedTools` (here `calc`) is not part of the payload, contrary to
the documented `{sessionId, nodeId, messages, tools}` contract; the node
is recorded with the provisional `started` final state and the dispatch
loop moves on to the remaining node. -/
theorem claim_C5 :
    (executeGraph env0 "S" exampleLLM).requests =
      [⟨"S", "p",
        [Msg.system "You are a helpful planner that may call tools if needed.",
         Msg.user "Hello"]⟩] ∧
    connectedToolsOf exampleLLM "p" = ["calc"] ∧
    llmPayloadFields = ["session_id", "node_id", "messages"] ∧
    "tools" ∉ llmPayloadFields ∧
    lookupFS (executeGraph env0 "S" exampleLLM).finalStates "p" =
      some { status := some "started" } ∧
    (executeGraph env0 "S" exampleLLM).sched.order = ["in", "p", "t"] := by
  refine ⟨by decide, by decide, rfl, by decide, by decide, by decide⟩

/-- C7 counterexample: a tool node naming the unregistered tool `nope`
is recorded `skipped`; the full event stream of the run shows no
error-status patch and nothing names the missing tool. -/
theorem claim_C7_counterexample :
    lookupFS (executeGraph env0 "S" exampleUnknownTool).finalStates "t1" =
      some { status := some "skipped" } ∧
    (executeGraph env0 "S" exampleUnknownTool).events =
      [Event.state_patch "sys" { startedAt := some 0 },
       Event.node_enter "t1" "Tool ",
       Event.state_patch "t1" { status := some "skipped" },
       Event.done { tokens := 0, cost := 0 }] := by
  refine ⟨by decide, by decide⟩

/-- C7 (amended): a dispatcher tool node whose `toolName` is not in the
registry falls through to the passthrough branch and is recorded
`skipped` — no crash, but also no error patch naming the tool; inside
the adapter, a requested call with an unregistered name yields the value
`Unknown tool <name>` under an `error` key rather than an exception. -/
theorem claim_C7 (g : Graph) (nid : String) (env : Env) (sid : String)
    (hvisited : nid ∈ (executeGraph env sid g).sched.order)
    (hnodup : (nodeKeys g).Nodup)
    (hllm : isLLM g nid = false)
    (t : String) (htool : toolOf g nid = some t)
    (hreg : lookupTool t = none) :
    lookupFS (executeGraph env sid g).finalStates nid =
      some { status := some "skipped" } ∧
    (∀ call : ToolCall, call.name ≠ "calc" → call.name ≠ "weather" →
      adapterToolResult call =
        Except.ok (ToolResult.errJson ("Unknown tool " ++ call.name))) := by
  obtain ⟨hl, -⟩ := (executeGraph_records env sid g hnodup).1 nid hvisited
  refine ⟨?_, ?_⟩
  · rw [hl, patchOf_unknown_tool g nid t hllm htool hreg]
  · intro call h1 h2
    unfold adapterToolResult
    rw [if_neg h1, if_neg h2]

/-- C7 witness: the amended dispatcher behaviour at the concrete
unknown-tool graph. -/
theorem claim_C7_witness :
    lookupFS (executeGraph env0 "S" exampleUnknownTool).finalStates "t1" =
      some { status := some "skipped" } :=
  (claim_C7 exampleUnknownTool "t1" env0 "S" (by decide) (by decide)
    (by decide) "nope" (by decide) rfl).1

/-- C8: the visit order is the pure scheduler's order — identical for
any fetch behaviour and session, so no per-node failure ever aborts or
reroutes the traversal; every visited node records a final state whose
status is terminal-or-provisional (`started`, `done`, `error` or
`skipped`); and a registered tool node whose handler raises records
exactly the `error` patch carrying the exception message. -/
theorem claim_C8 (g : Graph) (env env2 : Env) (sid sid2 : String)
    (hnd : (nodeKeys g).Nodup) :
    ((executeGraph env sid g).sched.order = computeOrder g ∧
     (executeGraph env2 sid2 g).sched.order =
       (executeGraph env sid g).sched.order) ∧
    (∀ nid ∈ (executeGraph env sid g).sched.order,
      ∃ p, lookupFS (executeGraph env sid g).finalStates nid = some p ∧
        p.status ∈ [some "started", some "done", some "error", some "skipped"]) ∧
    (∀ nid ∈ (executeGraph env sid g).sched.order,
      ∀ (t : String) (handler : Params → Except String ToolResult) (msg : String),
        isLLM g nid = false → toolOf g nid = some t →
        lookupTool t = some handler →
        handler (paramsOf g nid) = Except.error msg →
        lookupFS (executeGraph env sid g).finalStates nid =
          some { status := some "error", error := some msg }) := by
  refine ⟨⟨executeGraph_order env sid g, ?_⟩, ?_, ?_⟩
  · rw [executeGraph_order, executeGraph_order]
  · intro nid hmem
    obtain ⟨hl, -⟩ := (executeGraph_records env sid g hnd).1 nid hmem
    exact ⟨patchOf g nid, hl, patchOf_status g nid⟩
  · intro nid hmem t handler msg hllm htool hlk hres
    obtain ⟨hl, -⟩ := (executeGraph_records env sid g hnd).1 nid hmem
    rw [hl, patchOf_tool_error g nid t handler msg hllm htool hlk hres]

/-- C8 witness: the failing calc node records the charset error and its
downstream node is still visited under the unchanged scheduler order. -/
theorem claim_C8_witness :
    ((executeGraph env0 "S" exampleToolFailure).sched.order =
      computeOrder exampleToolFailure) ∧
    lookupFS (executeGraph env0 "S" exampleToolFailure).finalStates "t1" =
      some { status := some "error", error := some "invalid chars" } := by
  have h := claim_C8 exampleToolFailure env0 env0 "S" "S2" (by decide)
  exact ⟨h.1.1, h.2.2 "t1" (by decide) "calc" toolCalc "invalid chars"
    (by decide) (by decide) rfl (by decide)⟩

/-- Ranking functions witness acyclicity. -/
theorem no_cycle_of_rank {g : Graph} (f : String → Nat)
    (h : ∀ e ∈ g.edges, f e.source < f e.target) :
    ∀ n, ¬ Relation.TransGen (edgeRel g) n n := by
  have hmono : ∀ a b, edgeRel g a b → f a < f b := by
    rintro a b ⟨e, he, rfl, rfl⟩
    exact h e he
  have hlt : ∀ a b, Relation.TransGen (edgeRel g) a b → f a < f b := by
    intro a b hab
    induction hab with
    | single h1 => exact hmono _ _ h1
    | tail h1 h2 ih => exact lt_trans ih (hmono _ _ h2)
  intro n hc
  exact lt_irrefl _ (hlt n n hc)

/-- C1: on an acyclic graph whose edges stay over the declared (unique)
ids, the run visits a permutation of all node ids in which every edge's
source precedes its target; the order is the pure scheduler's and does
not depend on the environment or the session (deterministic for a fixed
graph encoding); and the initially eligible nodes open the order in
declaration order, reflecting the FIFO frontier. -/
theorem claim_C1 (g : Graph) (env env2 : Env) (sid sid2 : String)
    (hnd : (nodeKeys g).Nodup)
    (hends : ∀ e ∈ g.edges, e.source ∈ nodeKeys g ∧ e.target ∈ nodeKeys g)
    (hacyc : ∀ n, ¬ Relation.TransGen (edgeRel g) n n) :
    (computeOrder g).Perm (nodeKeys g) ∧
    (∀ e ∈ g.edges,
      (computeOrder g).indexOf e.source <
        (computeOrder g).indexOf e.target) ∧
    ((executeGraph env sid g).sched.order = computeOrder g ∧
     (executeGraph env2 sid2 g).sched.order =
       (executeGraph env sid g).sched.order) ∧
    (∃ tail, computeOrder g = (schedInit g).frontier ++ tail) := by
  have hco : computeOrder g = (schedLoop g (fuelOf g) (schedInit g)).order := rfl
  have hinv : SchedInv g (schedLoop g (fuelOf g) (schedInit g)) :=
    schedInv_loop g _ _ (schedInv_init g hnd)
  have hend0 : (schedLoop g (fuelOf g) (schedInit g)).frontier = [] :=
    schedLoop_completes g _ _ (le_refl _)
  have hidsU : ∀ n ∈ idsU g, n ∈ nodeKeys g := by
    intro n hn
    rcases List.mem_append.mp hn with h | h
    · exact h
    · rcases List.mem_map.mp h with ⟨e, he, rfl⟩
      exact (hends e he).2
  have hsrcU : ∀ e ∈ g.edges, e.source ∈ idsU g := by
    intro e he
    exact List.mem_append_left _ (hends e he).1
  have hsub : ∀ n ∈ computeOrder g, n ∈ nodeKeys g := by
    intro n hn
    rw [hco] at hn
    exact hidsU n (hinv.ordU n hn)
  have hsup : ∀ n ∈ nodeKeys g, n ∈ computeOrder g := by
    intro n hn
    rw [hco]
    by_contra hnv
    obtain ⟨m, hm, -⟩ := unvisited_cyclic g _ hinv hend0 hsrcU n
      (List.mem_append_left _ hn) hnv
    exact hacyc m hm
  have hperm : (computeOrder g).Perm (nodeKeys g) := by
    rw [hco, List.perm_ext_iff_of_nodup hinv.ordNodup hnd]
    intro a
    rw [← hco]
    exact ⟨hsub a, hsup a⟩
  refine ⟨hperm, ?_, ⟨executeGraph_order env sid g, ?_⟩, ?_⟩
  · intro e he
    have htv : e.target ∈ computeOrder g := hsup _ (hends e he).2
    rw [hco] at htv ⊢
    exact (hinv.topo e he htv).2
  · rw [executeGraph_order, executeGraph_order]
  · obtain ⟨tail, htail⟩ :=
      schedLoop_order_ext g (fuelOf g) (schedInit g) (le_refl _)
    refine ⟨tail, ?_⟩
    rw [hco, htail]
    show [] ++ _ ++ _ = _ ++ _
    simp

/-- C1 witness: the diamond DAG is visited as the permutation
a, b, c, d with both edges respected. -/
theorem claim_C1_witness :
    (computeOrder exampleDag).Perm (nodeKeys exampleDag) ∧
    computeOrder exampleDag = ["a", "b", "c", "d"] := by
  have h := claim_C1 exampleDag env0 env0 "s1" "s2" (by decide) (by decide)
    (no_cycle_of_rank
      (fun s => if s = "a" then 0 else if s = "d" then 2 else 1)
      (by decide))
  exact ⟨h.1, by decide⟩

/-- C3 counterexample: on the two-node cycle next to three ordered
nodes, nothing in the run's output mentions the cyclic nodes: they get
no events, no final-state entries, and the run's whole event stream and
visit order are enumerated below — there is no `unreachable` report of
any kind surfaced to the caller. -/
theorem claim_C3_counterexample :
    computeOrder exampleCycle = ["x", "y", "z"] ∧
    lookupFS (executeGraph env0 "S" exampleCycle).finalStates "c1" = none ∧
    lookupFS (executeGraph env0 "S" exampleCycle).finalStates "c2" = none ∧
    (executeGraph env0 "S" exampleCycle).events =
      [Event.state_patch "sys" { startedAt := some 0 },
       Event.node_enter "x" " ",
       Event.state_patch "x" { status := some "skipped" },
       Event.node_enter "y" " ",
       Event.state_patch "y" { status := some "skipped" },
       Event.node_enter "z" " ",
       Event.state_patch "z" { status := some "skipped" },
       Event.done { tokens := 0, cost := 0 }] := by
  refine ⟨by decide, by decide, by decide, by decide⟩

/-- C3 (amended): every node with an ancestor on a cycle is never
visited and is detectable only by omission — it appears in no event and
has no entry in the returned final-state map; every declared node that
is not visited does have a cyclic ancestor; and the nodes that are
visited still respect the topological order.  No crash: the loop
terminates with an empty frontier (see `executeGraph_frontier`). -/
theorem claim_C3 (g : Graph) (env : Env) (sid : String)
    (hnd : (nodeKeys g).Nodup)
    (hends : ∀ e ∈ g.edges, e.source ∈ nodeKeys g ∧ e.target ∈ nodeKeys g) :
    (∀ n, (∃ m, Relation.TransGen (edgeRel g) m m ∧
        Relation.ReflTransGen (edgeRel g) m n) →
      n ∉ (executeGraph env sid g).sched.order ∧
      lookupFS (executeGraph env sid g).finalStates n = none ∧
      ∀ msg, Event.node_enter n msg ∉ (executeGraph env sid g).events) ∧
    (∀ n ∈ nodeKeys g, n ∉ (executeGraph env sid g).sched.order →
      ∃ m, Relation.TransGen (edgeRel g) m m ∧
        Relation.ReflTransGen (edgeRel g) m n) ∧
    (∀ e ∈ g.edges, e.target ∈ (executeGraph env sid g).sched.order →
      e.source ∈ (executeGraph env sid g).sched.order ∧
      (executeGraph env sid g).sched.order.indexOf e.source <
        (executeGraph env sid g).sched.order.indexOf e.target) := by
  have hinv := executeGraph_inv env sid g hnd
  refine ⟨?_, ?_, fun e he ht => hinv.topo e he ht⟩
  · intro n hcyc
    have hnv : n ∉ (executeGraph env sid g).sched.order := by
      intro hv
      exact visited_no_cyclic_ancestor g _ hinv hv hcyc
    exact ⟨hnv, (executeGraph_unvisited env sid g hnd n hnv).1,
      (executeGraph_unvisited env sid g hnd n hnv).2⟩
  · intro n hn hnv
    apply unvisited_cyclic g _ hinv (executeGraph_frontier env sid g) ?_ n
      (List.mem_append_left _ hn) hnv
    intro e he
    exact List.mem_append_left _ (hends e he).1

/-- C3 witness: the amended behaviour at the concrete cyclic graph. -/
theorem claim_C3_witness :
    "c1" ∉ (executeGraph env0 "S" exampleCycle).sched.order ∧
    lookupFS (executeGraph env0 "S" exampleCycle).finalStates "c1" = none := by
  have h12 : edgeRel exampleCycle "c1" "c2" :=
    ⟨{ source := "c1", target := "c2" }, by decide, rfl, rfl⟩
  have h21 : edgeRel exampleCycle "c2" "c1" :=
    ⟨{ source := "c2", target := "c1" }, by decide, rfl, rfl⟩
  have h := (claim_C3 exampleCycle env0 "S" (by decide) (by decide)).1 "c1"
    ⟨"c1", Relation.TransGen.head h12 (Relation.TransGen.single h21),
     Relation.ReflTransGen.refl⟩
  exact ⟨h.1, h.2.1⟩

/-- C10: an edge target that is not a declared node never crashes the
run — the loop still drains its frontier completely; once every edge
into that id has its source visited (its in-degree has reached zero) the
id is visited like a node; and whenever it is visited, a `node_enter`
event with the blank message is emitted for it and a `skipped` final
state is recorded under that id. -/
theorem claim_C10 (g : Graph) (env : Env) (sid : String) (t : String)
    (hnd : (nodeKeys g).Nodup)
    (hundecl : t ∉ nodeKeys g)
    (htarget : ∃ e ∈ g.edges, e.target = t) :
    (executeGraph env sid g).sched.frontier = [] ∧
    ((∀ e ∈ g.edges, e.target = t →
        e.source ∈ (executeGraph env sid g).sched.order) →
      t ∈ (executeGraph env sid g).sched.order) ∧
    (t ∈ (executeGraph env sid g).sched.order →
      Event.node_enter t " " ∈ (executeGraph env sid g).events ∧
      lookupFS (executeGraph env sid g).finalStates t =
        some { status := some "skipped" }) := by
  have hinv := executeGraph_inv env sid g hnd
  have hfr := executeGraph_frontier env sid g
  obtain ⟨hmsg, hllm, hpatch⟩ :=
    findNode_none_facts g t (findNode_eq_none g t hundecl)
  refine ⟨hfr, ?_, ?_⟩
  · intro hall
    have hidsU : t ∈ idsU g := by
      obtain ⟨e, he, het⟩ := htarget
      rw [← het]
      exact mem_idsU_of_target g he
    have hpc : pcount g (executeGraph env sid g).sched.order t = tcount g t := by
      unfold pcount tcount
      apply List.countP_congr
      intro e he
      by_cases h1 : e.target = t
      · simp [h1, hall e he h1]
      · simp [h1]
    have hz : (executeGraph env sid g).sched.incoming t = 0 := by
      rw [hinv.inc t, hpc]
      omega
    rcases hinv.complete t hidsU hz with h | h
    · exact h
    · rw [hfr] at h
      simp at h
  · intro hv
    obtain ⟨hl, he⟩ := (executeGraph_records env sid g hnd).1 t hv
    rw [hmsg] at he
    rw [hl, hpatch]
    exact ⟨he, rfl⟩

/-- C10 witness: the single declared node feeding the undeclared id. -/
theorem claim_C10_witness :
    "b" ∈ (executeGraph env0 "S" exampleUndeclared).sched.order ∧
    Event.node_enter "b" " " ∈ (executeGraph env0 "S" exampleUndeclared).events ∧
    lookupFS (executeGraph env0 "S" exampleUndeclared).finalStates "b" =
      some { status := some "skipped" } := by
  have h := claim_C10 exampleUndeclared env0 "S" "b" (by decide) (by decide)
    ⟨{ source := "a", target := "b" }, by decide, rfl⟩
  have hb : "b" ∈ (executeGraph env0 "S" exampleUndeclared).sched.order :=
    h.2.1 (by decide)
  exact ⟨hb, (h.2.2 hb).1, (h.2.2 hb).2⟩


end Studio


